import Mathlib

/-!
# Verification of the WYSIWYG editor core (`editor.js`)

This file gives a shallow embedding of the editor core of the repository:
the document tree (a DOM-like tree of element/text/comment/cdata nodes with
attributes, text values and ordered children), the mutation-record model,
the undo ring buffer (`UndoBuffer`), and the normalization pass
(`Nomalizer`), together with theorems about the claims of the
specification.

Modelling conventions:
* DOM nodes are identified by natural numbers; a `Doc` is an association
  list from node ids to node data plus a fresh-id counter used by
  `document.createElement`.
* `parentNode`, `previousSibling` and `nextSibling` are derived from the
  children lists, so a node's parent is the unique node whose children
  list contains it.
* DOM element attributes are an unordered name/namespace-keyed map; the
  embedding keeps the backing list sorted by key so that map equality is
  list equality.
* JavaScript numbers holding buffer indices are modelled as `Int`; the
  JS remainder operator `%` (truncating) is `Int.tmod`.
* Paths where the JS code would throw a `TypeError` (reading a field of
  `null`, e.g. `updateCaret(null)`, or calling into a cleared buffer
  slot) are modelled with `Except String`.
* DOM calls that throw on contract violations the source never exercises
  (`removeChild` of a non-child, `insertBefore` with a detached
  reference node) are modelled totally: the remove is a no-op, the
  insert appends.
-/

/-- Kind of a document node: an element with a tag name, or a text /
comment / CDATA leaf. -/
inductive NKind where
  | element : String → NKind
  | text : NKind
  | comment : NKind
  | cdata : NKind
  deriving Repr, DecidableEq, Inhabited

/-- Attribute key: normalized namespace (`none` when the JS value is
falsy) and attribute name as stored in a mutation record. -/
abbrev AttrKey := Option String × Option String

/-- The data of one document node. -/
structure NData where
  kind : NKind
  value : Option String
  attrs : List (AttrKey × String)
  children : List Nat
  deriving Repr, DecidableEq, Inhabited

/-- A document tree: node store plus fresh-id counter for
`document.createElement`. -/
structure Doc where
  nodes : List (Nat × NData)
  nextId : Nat
  deriving Repr, DecidableEq, Inhabited

namespace Doc

/-- Look up the data of a node. -/
def lookup (d : Doc) (n : Nat) : Option NData :=
  (d.nodes.find? (fun e => e.1 == n)).map (·.2)

/-- Update the data of one node (no-op if absent). -/
def updateNode (d : Doc) (n : Nat) (f : NData → NData) : Doc :=
  { d with nodes := d.nodes.map (fun e => if e.1 = n then (e.1, f e.2) else e) }

/-- `node.childNodes` as a list of ids. -/
def childrenOf (d : Doc) (n : Nat) : List Nat :=
  match d.lookup n with
  | some nd => nd.children
  | none => []

/-- `node.parentNode`: the first stored node whose children contain `n`. -/
def parentOf (d : Doc) (n : Nat) : Option Nat :=
  (d.nodes.find? (fun e => e.2.children.contains n)).map (·.1)

end Doc

/-- The element of `cs` immediately before the first occurrence of `n`. -/
def prevInList : List Nat → Nat → Option Nat
  | [], _ => none
  | [_], _ => none
  | a :: b :: rest, n => if b = n then some a else prevInList (b :: rest) n

/-- The element of `cs` immediately after the first occurrence of `n`. -/
def nextInList : List Nat → Nat → Option Nat
  | [], _ => none
  | [_], _ => none
  | a :: b :: rest, n => if a = n then some b else nextInList (b :: rest) n

namespace Doc

/-- `node.previousSibling`. -/
def previousSibling (d : Doc) (n : Nat) : Option Nat :=
  match d.parentOf n with
  | some p => prevInList (d.childrenOf p) n
  | none => none

/-- `node.nextSibling`. -/
def nextSibling (d : Doc) (n : Nat) : Option Nat :=
  match d.parentOf n with
  | some p => nextInList (d.childrenOf p) n
  | none => none

/-- `node.nodeValue` (`none` both for elements and for absent nodes,
matching the JS `null`). -/
def nodeValue (d : Doc) (n : Nat) : Option String :=
  match d.lookup n with
  | some nd => nd.value
  | none => none

/-- `node.nodeValue = v`. -/
def setNodeValue (d : Doc) (n : Nat) (v : Option String) : Doc :=
  d.updateNode n (fun nd => { nd with value := v })

end Doc

/-- Strict order on optional strings: `none` sorts first. -/
def optStrLt : Option String → Option String → Bool
  | none, none => false
  | none, some _ => true
  | some _, none => false
  | some a, some b => decide (a < b)

/-- Strict lexicographic order on attribute keys. -/
def keyLt (a b : AttrKey) : Bool :=
  optStrLt a.1 b.1 || (a.1 == b.1 && optStrLt a.2 b.2)

/-- Insert or replace an attribute, keeping the list sorted by key. -/
def setAttrList : List (AttrKey × String) → AttrKey → String → List (AttrKey × String)
  | [], k, v => [(k, v)]
  | (k0, v0) :: rest, k, v =>
    if k0 = k then (k, v) :: rest
    else if keyLt k k0 then (k, v) :: (k0, v0) :: rest
    else (k0, v0) :: setAttrList rest k v

/-- Remove an attribute. -/
def removeAttrList (l : List (AttrKey × String)) (k : AttrKey) : List (AttrKey × String) :=
  l.filter (fun e => !(e.1 == k))

/-- Read an attribute (`none` when absent, matching `getAttribute`
returning `null`). -/
def getAttrList (l : List (AttrKey × String)) (k : AttrKey) : Option String :=
  (l.find? (fun e => e.1 == k)).map (·.2)

namespace Doc

/-- `element.getAttribute` / `getAttributeNS`. -/
def getAttribute (d : Doc) (n : Nat) (k : AttrKey) : Option String :=
  match d.lookup n with
  | some nd => getAttrList nd.attrs k
  | none => none

/-- `element.setAttribute` / `setAttributeNS`. -/
def setAttribute (d : Doc) (n : Nat) (k : AttrKey) (v : String) : Doc :=
  d.updateNode n (fun nd => { nd with attrs := setAttrList nd.attrs k v })

/-- `element.removeAttribute` / `removeAttributeNS`. -/
def removeAttribute (d : Doc) (n : Nat) (k : AttrKey) : Doc :=
  d.updateNode n (fun nd => { nd with attrs := removeAttrList nd.attrs k })

/-- Remove `n` from every children list (a DOM node insertion first
detaches the node from its current parent). -/
def detachAll (d : Doc) (n : Nat) : Doc :=
  { d with nodes := d.nodes.map (fun e => (e.1, { e.2 with children := e.2.children.erase n })) }

end Doc

/-- Insert `n` immediately before the first occurrence of `r`
(append when `r` is absent — the source never exercises that case). -/
def insertBeforeAux : List Nat → Nat → Nat → List Nat
  | [], n, _ => [n]
  | c :: rest, n, r => if c = r then n :: c :: rest else c :: insertBeforeAux rest n r

/-- Insert `n` before `ref` (`none` appends, like
`insertBefore(n, null)`). -/
def insertBeforeList (cs : List Nat) (n : Nat) (ref : Option Nat) : List Nat :=
  match ref with
  | none => cs ++ [n]
  | some r => insertBeforeAux cs n r

namespace Doc

/-- `target.insertBefore(n, ref)`: detach `n`, then splice it into
`target`'s children before `ref`. -/
def insertBefore (d : Doc) (t : Nat) (n : Nat) (ref : Option Nat) : Doc :=
  (d.detachAll n).updateNode t (fun nd => { nd with children := insertBeforeList nd.children n ref })

/-- `target.removeChild(n)` (no-op when `n` is not a child; the JS
would throw, but the core never removes a non-child). -/
def removeChild (d : Doc) (t : Nat) (n : Nat) : Doc :=
  d.updateNode t (fun nd => { nd with children := nd.children.erase n })

/-- `target.replaceChild(newN, oldN)`. -/
def replaceChild (d : Doc) (t : Nat) (newN oldN : Nat) : Doc :=
  (d.detachAll newN).updateNode t
    (fun nd => { nd with children := nd.children.map (fun c => if c = oldN then newN else c) })

/-- `document.createElement(tag)`: allocate a fresh node id. -/
def createElement (d : Doc) (tag : String) : Nat × Doc :=
  (d.nextId,
   { nodes := d.nodes ++ [(d.nextId, { kind := NKind.element tag, value := none, attrs := [], children := [] })],
     nextId := d.nextId + 1 })

/-- `node.nodeType === Node.TEXT_NODE`. -/
def isTextNode (d : Doc) (n : Nat) : Bool :=
  match d.lookup n with
  | some nd => nd.kind == NKind.text
  | none => false

/-- `node.nodeType === Node.ELEMENT_NODE && node.tagName.toLowerCase() === tag`. -/
def isElementTag (d : Doc) (n : Nat) (tag : String) : Bool :=
  match d.lookup n with
  | some nd =>
    match nd.kind with
    | NKind.element t => t.toLower == tag
    | _ => false
  | none => false

/-- `node.nodeType === Node.ELEMENT_NODE`. -/
def isElement (d : Doc) (n : Nat) : Bool :=
  match d.lookup n with
  | some nd =>
    match nd.kind with
    | NKind.element _ => true
    | _ => false
  | none => false

end Doc

/-- The record type of a mutation record
(`"characterData" | "attributes" | "childList"`). -/
inductive RType where
  | characterData
  | attributes
  | childList
  deriving Repr, DecidableEq, Inhabited

/-- `UndoBufferRecord`: one observed or synthesized DOM mutation, as in
the source's typedef. -/
structure UndoBufferRecord where
  type : RType
  target : Nat
  addedNodes : List Nat
  removedNodes : List Nat
  previousSibling : Option Nat
  nextSibling : Option Nat
  attributeName : Option String
  attributeNamespace : Option String
  oldValue : Option String
  newValue : Option String
  deriving Repr, DecidableEq, Inhabited

/-- A caret snapshot (the `Range`-compatible object used by the source). -/
structure Rng where
  startContainer : Nat
  startOffset : Nat
  endContainer : Nat
  endOffset : Nat
  deriving Repr, DecidableEq, Inhabited

/-- The host state outside the buffer: the live document tree and the
current selection (`none` models `window.getSelection()` with
`rangeCount === 0`, so `UndoBuffer.getCaret()` returns `null`). -/
structure World where
  doc : Doc
  sel : Option Rng
  deriving Repr, DecidableEq, Inhabited

/-- `UndoBufferPiece`: one undo step. -/
structure UndoBufferPiece where
  records : List UndoBufferRecord
  oldRange : Rng
  newRange : Option Rng
  deriving Repr, DecidableEq, Inhabited

/-- The mutable fields of the `UndoBuffer` class.  A `none` slot models
both a never-written slot and a slot invalidated by the
`this.#buffer[i] = []` clearing writes. -/
structure UndoBufferState where
  bufferSize : Int
  offset : Int
  pos : Int
  endPos : Int
  buffer : List (Option UndoBufferPiece)
  range : Rng
  deriving Repr, DecidableEq, Inhabited

namespace UndoBuffer

/-- The state of a freshly constructed `UndoBuffer`. -/
def initState (bufferSize : Int) : UndoBufferState :=
  { bufferSize := bufferSize, offset := 0, pos := 0, endPos := 0, buffer := [], range := default }

/-- `UndoBuffer.#existBuffer(readPos)`. -/
def existBuffer (b : UndoBufferState) (readPos : Int) : Bool :=
  if b.offset ≠ b.endPos then
    if b.offset < b.endPos then
      decide (b.offset ≤ readPos) && decide (readPos < b.endPos)
    else
      (decide (b.offset ≤ readPos) && decide (readPos < b.bufferSize))
        || (decide (0 ≤ readPos) && decide (readPos < b.endPos))
  else false

/-- `UndoBuffer.updateCaret(range)`: throws a `TypeError` when handed
`null`. -/
def updateCaret (w : World) (r : Option Rng) : Except String World :=
  match r with
  | some rng => .ok { w with sel := some rng }
  | none => .error ("updateCaret: null range")

/-- Attribute key selected by a record: the non-namespace accessors are
used when `attributeNamespace` is falsy. -/
def akey (op : UndoBufferRecord) : AttrKey :=
  (match op.attributeNamespace with
   | some s => if s = "" then none else some s
   | none => none,
   op.attributeName)

/-- One loop iteration of `UndoBuffer.#undo`: reverse-apply one record,
stashing the live value into `newValue` for the later redo. -/
def undoRec (d : Doc) (op : UndoBufferRecord) : UndoBufferRecord × Doc :=
  match op.type with
  | RType.characterData =>
    ({ op with newValue := d.nodeValue op.target }, d.setNodeValue op.target op.oldValue)
  | RType.attributes =>
    let k := akey op
    let op' := { op with newValue := d.getAttribute op.target k }
    match op.oldValue with
    | none => (op', d.removeAttribute op.target k)
    | some v => (op', d.setAttribute op.target k v)
  | RType.childList =>
    let d1 := op.addedNodes.reverse.foldl (fun acc n => acc.removeChild op.target n) d
    let d2 := op.removedNodes.reverse.foldl (fun acc n => acc.insertBefore op.target n op.nextSibling) d1
    (op, d2)

/-- `UndoBuffer.#undo(records)`: reverse-apply the records from the
last to the first, returning the in-place-mutated records. -/
def undoRecords (d : Doc) : List UndoBufferRecord → List UndoBufferRecord × Doc
  | [] => ([], d)
  | op :: rest =>
    let (rest', d1) := undoRecords d rest
    let (op', d2) := undoRec d1 op
    (op' :: rest', d2)

/-- One loop iteration of `UndoBuffer.#redo`: forward-apply one record. -/
def redoRec (d : Doc) (op : UndoBufferRecord) : Doc :=
  match op.type with
  | RType.characterData => d.setNodeValue op.target op.newValue
  | RType.attributes =>
    let k := akey op
    match op.newValue with
    | none => d.removeAttribute op.target k
    | some v => d.setAttribute op.target k v
  | RType.childList =>
    let d1 := op.addedNodes.foldl (fun acc n => acc.insertBefore op.target n op.nextSibling) d
    op.removedNodes.foldl (fun acc n => acc.removeChild op.target n) d1

/-- `UndoBuffer.#redo(records)`: forward-apply the records in order. -/
def redoRecords (d : Doc) (records : List UndoBufferRecord) : Doc :=
  records.foldl redoRec d

/-- The piece built by `push` for a fresh slot. -/
def mkPiece (records : List UndoBufferRecord) (b : UndoBufferState) (w : World) : UndoBufferPiece :=
  { records := records, oldRange := b.range, newRange := w.sel }

/-- Clear (set to `none`) every slot whose index satisfies `p`,
numbering the head of the list `k`.  This models the
`this.#buffer[i] = []` invalidation loops of `push`. -/
def clearSlots (p : Nat → Bool) : List (Option UndoBufferPiece) → Nat → List (Option UndoBufferPiece)
  | [], _ => []
  | x :: rest, k => (if p k then none else x) :: clearSlots p rest (k + 1)

/-- The `mode == false` path of `UndoBuffer.push`: write a new slot,
advance `pos`/`endPos` (and `offset` on overwrite), then clear every
slot outside the new `[offset, endPos)` window. -/
def pushNew (records : List UndoBufferRecord) (b : UndoBufferState) (w : World) : UndoBufferState :=
  let piece := mkPiece records b w
  let buf1 :=
    if b.pos.toNat < b.buffer.length then b.buffer.set b.pos.toNat (some piece)
    else b.buffer ++ [some piece]
  let pos1 : Int := (b.pos + 1).tmod b.bufferSize
  let offset1 : Int := if pos1 = b.offset then (b.offset + 1).tmod b.bufferSize else b.offset
  let buf2 :=
    if offset1 < pos1 then
      clearSlots (fun i => decide (pos1 ≤ (i : Int)) || decide ((i : Int) < offset1)) buf1 0
    else
      clearSlots (fun i => decide (pos1 ≤ (i : Int)) && decide ((i : Int) < offset1)) buf1 0
  { b with buffer := buf2, pos := pos1, endPos := pos1, offset := offset1 }

/-- `UndoBuffer.push(records, mode)`.  The error case models the JS
`TypeError` that would fire if a valid-per-`#existBuffer` slot held a
cleared marker. -/
def push (records : List UndoBufferRecord) (mode : Bool) (b : UndoBufferState) (w : World) :
    Except String UndoBufferState :=
  if b.bufferSize ≤ 0 then .ok b
  else if mode then
    let writePos := (b.pos + b.bufferSize - 1).tmod b.bufferSize
    if existBuffer b writePos then
      match b.buffer.getD writePos.toNat none with
      | some p =>
        .ok { b with buffer := b.buffer.set writePos.toNat (some { p with records := p.records ++ records }) }
      | none => .error ("push: cleared slot")
    else .ok (pushNew records b w)
  else .ok (pushNew records b w)

/-- `UndoBuffer.undo()`. -/
def undo (b : UndoBufferState) (w : World) : Except String (UndoBufferState × World) :=
  let readPos := (b.pos + b.bufferSize - 1).tmod b.bufferSize
  if existBuffer b readPos then
    match b.buffer.getD readPos.toNat none with
    | some piece =>
      let (records', d') := undoRecords w.doc piece.records
      let piece' := { piece with records := records' }
      let b' := { b with buffer := b.buffer.set readPos.toNat (some piece'), pos := readPos }
      .ok (b', { doc := d', sel := some piece.oldRange })
    | none => .error ("undo: cleared slot")
  else .ok (b, w)

/-- `UndoBuffer.redo()`.  Replaying a piece whose `newRange` is `null`
reaches `updateCaret(null)` and throws. -/
def redo (b : UndoBufferState) (w : World) : Except String (UndoBufferState × World) :=
  let readPos := b.pos
  if existBuffer b readPos then
    match b.buffer.getD readPos.toNat none with
    | some piece =>
      let d' := redoRecords w.doc piece.records
      match piece.newRange with
      | some rng =>
        .ok ({ b with pos := (b.pos + 1).tmod b.bufferSize }, { doc := d', sel := some rng })
      | none => .error ("redo: null caret snapshot")
    | none => .error ("redo: cleared slot")
  else .ok (b, w)

end UndoBuffer

namespace Nomalizer

/-- The state threaded through `Nomalizer.normalize`: the live tree, the
caret snapshot taken at the start of the pass, and the record list being
rewritten. -/
structure NSt where
  doc : Doc
  range : Option Rng
  records : List UndoBufferRecord
  deriving Repr, DecidableEq, Inhabited

/-- The body of the `Nomalizer.replaceOperation` loop for one record:
rewrite the `childList` links that point at `node`, drop non-`childList`
records targeting `node`. -/
def replOne (node target : Nat) (previousSibling nextSibling : Option Nat)
    (r : UndoBufferRecord) : Option UndoBufferRecord :=
  if r.type = RType.childList then
    some { r with
      target := if r.target = node then target else r.target,
      previousSibling := if r.previousSibling = some node then previousSibling else r.previousSibling,
      nextSibling := if r.nextSibling = some node then nextSibling else r.nextSibling }
  else if r.target = node then none
  else some r

/-- `Nomalizer.replaceOperation(records, node, target, prev, next, b, records.length)`
(every call site passes `records.length` as the end index). -/
def replaceOperation (records : List UndoBufferRecord) (node target : Nat)
    (previousSibling nextSibling : Option Nat) (b : Nat) : List UndoBufferRecord :=
  records.take b ++ (records.drop b).filterMap (replOne node target previousSibling nextSibling)

/-- `Nomalizer.insertInsertOperation(records, target, nodes, index)`:
splice in a fresh insertion record whose sibling anchors are read from
the live tree. -/
def insertInsertOperation (d : Doc) (records : List UndoBufferRecord) (target : Nat)
    (nodes : List Nat) (index : Nat) : List UndoBufferRecord :=
  if nodes.length = 0 then records
  else
    records.take index ++
      [{ type := RType.childList, target := target, addedNodes := nodes, removedNodes := [],
         previousSibling := d.previousSibling (nodes.headD 0),
         nextSibling := d.nextSibling (nodes.getLastD 0),
         attributeName := none, attributeNamespace := none, oldValue := none, newValue := none }] ++
      records.drop index

/-- `Nomalizer.cancelInsertOperation(records, i, j)`: drop added node
`j` of record `i`; when the record's `addedNodes` empties, drop the
record itself.  The boolean reports whether the record was dropped
(the JS signals this by returning the decremented indices `[i-1, j-1]`). -/
def cancelInsertOperation (records : List UndoBufferRecord) (i j : Nat) :
    List UndoBufferRecord × Bool :=
  let op := records.getD i default
  let added' := op.addedNodes.take j ++ op.addedNodes.drop (j+1)
  if added'.length = 0 then
    (records.eraseIdx i, true)
  else
    (records.set i { op with addedNodes := added' }, false)

/-- `Nomalizer.getChildIndex(node)`: number of preceding siblings
(0 for a detached node). -/
def getChildIndex (d : Doc) (n : Nat) : Nat :=
  match d.parentOf n with
  | some p => (d.childrenOf p).indexOf n
  | none => 0

/-- The caret-translation tail of `Nomalizer.moveNodeList`.  `len` is
the value of `targets.length` read after the moves (for a live
`NodeList` argument this is the number of children left behind). -/
def moveRangeAdjust (targetsParent : Option Nat) (offset childIndex len : Nat) (refParent : Nat)
    (range : Option Rng) : Option Rng :=
  match range with
  | none => none
  | some rng =>
    let rng1 :=
      if targetsParent = some rng.startContainer ∧ offset ≤ rng.startOffset ∧ rng.startOffset ≤ offset + len
      then { rng with startContainer := refParent, startOffset := rng.startOffset - offset + childIndex }
      else rng
    let rng2 :=
      if targetsParent = some rng1.endContainer ∧ offset ≤ rng1.endOffset ∧ rng1.endOffset ≤ offset + len
      then { rng1 with endContainer := refParent, endOffset := rng1.endOffset - offset + childIndex }
      else rng1
    if targetsParent = none then
      let rng3 :=
        if rng2.startContainer = refParent ∧ childIndex ≤ rng2.startOffset
        then { rng2 with startOffset := rng2.startOffset + len } else rng2
      let rng4 :=
        if rng3.endContainer = refParent ∧ childIndex ≤ rng3.endOffset
        then { rng3 with endOffset := rng3.endOffset + len } else rng3
      some rng4
    else some rng2

/-- `Nomalizer.moveNodeList(range, targets, refParent, ref)` when the
caller passes a plain array (snapshot semantics; its length is fixed). -/
def moveNodeList (d : Doc) (range : Option Rng) (targets : List Nat) (refParent : Nat)
    (ref : Option Nat) : Doc × Option Rng :=
  match targets with
  | [] => (d, range)
  | t0 :: _ =>
    let targetsParent := d.parentOf t0
    let offset := getChildIndex d t0
    let childIndex :=
      match ref with
      | some r => getChildIndex d r
      | none => (d.childrenOf refParent).length
    let d1 := targets.foldl (fun acc t => acc.insertBefore refParent t ref) d
    (d1, moveRangeAdjust targetsParent offset childIndex targets.length refParent range)

/-- The `for (const target of targets)` loop of `moveNodeList` when
`targets` is the live `node.childNodes` list and `ref` is non-null: the
iterator index advances while insertions shrink the live list, so only
every other child is moved. -/
def moveLiveGo (d : Doc) (srcNode refParent r : Nat) : Nat → Nat → Doc
  | 0, _ => d
  | fuel+1, k =>
    let cs := d.childrenOf srcNode
    if k < cs.length then
      moveLiveGo (d.insertBefore refParent (cs.getD k 0) (some r)) srcNode refParent r fuel (k+1)
    else d

/-- `Nomalizer.moveNodeList(range, node.childNodes, refParent, ref)`:
the callers that pass the live `childNodes` list.  With `ref` null the
JS spreads the list (`refParent.append(...targets)`), which snapshots
it; with `ref` non-null the live-iterator skipping applies.  In both
cases `targets.length` in the caret translation is read after the
moves. -/
def moveNodeListLive (d : Doc) (range : Option Rng) (srcNode refParent : Nat)
    (ref : Option Nat) : Doc × Option Rng :=
  match d.childrenOf srcNode with
  | [] => (d, range)
  | t0 :: _ =>
    let cs := d.childrenOf srcNode
    let targetsParent := d.parentOf t0
    let offset := getChildIndex d t0
    let childIndex :=
      match ref with
      | some r => getChildIndex d r
      | none => (d.childrenOf refParent).length
    let d1 :=
      match ref with
      | some r => moveLiveGo d srcNode refParent r (cs.length + 1) 0
      | none => cs.foldl (fun acc t => acc.insertBefore refParent t none) d
    let len := (d1.childrenOf srcNode).length
    (d1, moveRangeAdjust targetsParent offset childIndex len refParent range)

/-- `Nomalizer.replaceNodeAndInsertOperation(records, i, j, target)`. -/
def replaceNodeAndInsertOperation (st : NSt) (i j : Nat) (target : Nat) : NSt :=
  let op := st.records.getD i default
  let node := op.addedNodes.getD j 0
  let d1 := st.doc.replaceChild op.target target node
  let records1 := st.records.set i { op with addedNodes := op.addedNodes.set j target }
  let records2 := replaceOperation records1 node target (some target) (some target) (i+1)
  { st with doc := d1, records := records2 }

/-- `Nomalizer.expandChildNodesAndInsertOperation(range, records, i, j)`.
The boolean reports whether record `i` was dropped by the inner
`cancelInsertOperation`. -/
def expandChildNodesAndInsertOperation (st : NSt) (i j : Nat) : NSt × Bool :=
  let op := st.records.getD i default
  let node := op.addedNodes.getD j 0
  let ref := st.doc.nextSibling node
  let childIndex := getChildIndex st.doc node
  let (records1, removed) := cancelInsertOperation st.records i j
  let d1 := st.doc.removeChild op.target node
  let range1 :=
    match st.range with
    | none => none
    | some rng =>
      let rng1 :=
        if rng.startContainer = op.target ∧ childIndex < rng.startOffset
        then { rng with startOffset := rng.startOffset - 1 } else rng
      let rng2 :=
        if rng1.endContainer = op.target ∧ childIndex < rng1.endOffset
        then { rng1 with endOffset := rng1.endOffset - 1 } else rng1
      some rng2
  let cs := d1.childrenOf node
  if cs.length ≠ 0 then
    let b := if removed then i else i + 1
    let records2 := replaceOperation records1 node op.target (some (cs.getLastD 0)) (some (cs.headD 0)) b
    let (d2, range2) := moveNodeListLive d1 range1 node op.target ref
    ({ doc := d2, range := range2, records := records2 }, removed)
  else
    ({ doc := d1, range := range1, records := records1 }, removed)

/-- `Nomalizer.moveNodeAndInsertOperation(range, records, i, j, target)`. -/
def moveNodeAndInsertOperation (st : NSt) (i j : Nat) (target : Nat) : NSt × Bool :=
  let op := st.records.getD i default
  let node := op.addedNodes.getD j 0
  let prev := st.doc.previousSibling node
  let next := st.doc.nextSibling node
  let (records1, removed) := cancelInsertOperation st.records i j
  let b := if removed then i else i + 1
  let records2 := replaceOperation records1 node op.target prev next b
  let (d1, range1) := moveNodeList st.doc st.range [node] target none
  let records3 := insertInsertOperation d1 records2 target [node] records2.length
  ({ doc := d1, range := range1, records := records3 }, removed)

/-- `Nomalizer.insertParentNodeAndInsertOperation(range, records, i, j, parent)`.
After the `replaceChild`, `parent.parentNode` is the record's target,
which is what the temporary re-insertion of `node` uses. -/
def insertParentNodeAndInsertOperation (st : NSt) (i j : Nat) (parent : Nat) : NSt :=
  let op := st.records.getD i default
  let node := op.addedNodes.getD j 0
  let st1 := replaceNodeAndInsertOperation st i j parent
  let d2 := st1.doc.insertBefore op.target node (some parent)
  let (d3, range3) := moveNodeList d2 st1.range [node] parent none
  let records4 := insertInsertOperation d3 st1.records parent [node] (i+1)
  { doc := d3, range := range3, records := records4 }

/-- The IIFE of rule 2: does the node have a direct text-node child? -/
def hasTextChild (d : Doc) (n : Nat) : Bool :=
  (d.childrenOf n).any (fun c => d.isTextNode c)

/-- Rule 3 guard: exactly one child, and it is a `br` element. -/
def singleBrChild (d : Doc) (n : Nat) : Bool :=
  match d.childrenOf n with
  | [c] => d.isElementTag c ("br")
  | _ => false

/-- Rule 5's guard: the inserted line break has a preceding sibling
that is not itself a line break, and no following sibling. -/
def rule5Cond (d : Doc) (node : Nat) : Bool :=
  match d.previousSibling node with
  | some prev => !(d.isElementTag prev ("br")) && (d.nextSibling node == none)
  | none => false

/-- Rule 6's ancestor walk: from `parent` up to (but excluding) `root`,
is some ancestor a `p` element?  When the chain ends (a `null` parent)
before reaching `root`, the JS `while (parent !== root)` guard passes
and the body dereferences the null parent, throwing a `TypeError`
(`some (.error _)`).  `none` is fuel exhaustion: on a cyclic chain the
JS loop never terminates; the fuel covers every acyclic chain. -/
def hasPAncestor (d : Doc) (root : Nat) : Nat → Option Nat → Option (Except String Bool)
  | 0, _ => none
  | _+1, none => some (.error ("hasPAncestor: null parent"))
  | fuel+1, some p =>
    if p = root then some (.ok false)
    else if d.isElementTag p ("p") then some (.ok true)
    else hasPAncestor d root fuel (d.parentOf p)

/-- The doubly nested record/added-node loop of `Nomalizer.normalize`,
with explicit fuel (`none` = fuel exhausted; the JS loop's termination
is not proved in general).  A `some (.error _)` result is the
`TypeError` thrown when rule 6's ancestor walk dereferences a null
parent.  The index bookkeeping after a rule that drops record `i`
mirrors the JS exactly: the stale `op` reference has an emptied
`addedNodes`, so the inner loop exits at once and the outer `++i` lands
on the record that shifted into position `i`. -/
def normalizeGo (root : Nat) : Nat → NSt → Nat → Nat → Option (Except String NSt)
  | 0, _, _, _ => none
  | fuel+1, st, i, j =>
    if i ≥ st.records.length then some (.ok st)
    else
      let op := st.records.getD i default
      if op.type ≠ RType.childList then normalizeGo root fuel st (i+1) 0
      else if j ≥ op.addedNodes.length then normalizeGo root fuel st (i+1) 0
      else
        let node := op.addedNodes.getD j 0
        if st.doc.parentOf node ≠ some op.target then normalizeGo root fuel st i (j+1)
        else if st.doc.isTextNode node ∧ op.target = root then
          let (p, d1) := st.doc.createElement ("p")
          let st1 := insertParentNodeAndInsertOperation { st with doc := d1 } i j p
          normalizeGo root fuel st1 i (j+1)
        else if hasTextChild st.doc node then
          if (¬ st.doc.isElement node ∨ st.doc.isElementTag node ("div")) ∧ op.target = root then
            let (p, d1) := st.doc.createElement ("p")
            let st1 := replaceNodeAndInsertOperation { st with doc := d1 } i j p
            let (d2, range2) := moveNodeListLive st1.doc st1.range node p none
            normalizeGo root fuel { st1 with doc := d2, range := range2 } i (j+1)
          else normalizeGo root fuel st i (j+1)
        else if singleBrChild st.doc node then
          if (¬ st.doc.isElementTag node ("p")) ∧ op.target = root then
            let (st1, removed) := expandChildNodesAndInsertOperation st i j
            if removed then normalizeGo root fuel st1 i 0
            else normalizeGo root fuel st1 i j
          else normalizeGo root fuel st i (j+1)
        else if st.doc.isElementTag node ("br") ∧ op.target = root then
          let usePrev :=
            match st.doc.previousSibling node with
            | some prev => st.doc.isElementTag prev ("p")
            | none => false
          if usePrev then
            let prev := (st.doc.previousSibling node).getD 0
            let (st1, removed) := moveNodeAndInsertOperation st i j prev
            if removed then normalizeGo root fuel st1 i 0
            else normalizeGo root fuel st1 i j
          else
            let (p, d1) := st.doc.createElement ("p")
            let st1 := insertParentNodeAndInsertOperation { st with doc := d1 } i j p
            normalizeGo root fuel st1 i (j+1)
        else if st.doc.isElementTag node ("br") then
          if rule5Cond st.doc node then
            let (br, d1) := st.doc.createElement ("br")
            let (d2, range2) := moveNodeList d1 st.range [br] op.target (some node)
            let records3 := insertInsertOperation d2 st.records op.target [br] st.records.length
            normalizeGo root fuel { doc := d2, range := range2, records := records3 } i (j+1)
          else normalizeGo root fuel st i (j+1)
        else if st.doc.isElementTag node ("p") then
          match hasPAncestor st.doc root (st.doc.nodes.length + 1) (st.doc.parentOf node) with
          | none => none
          | some (.error e) => some (.error e)
          | some (.ok true) =>
            let (st1, removed) := expandChildNodesAndInsertOperation st i j
            if removed then normalizeGo root fuel st1 i 0
            else normalizeGo root fuel st1 i j
          | some (.ok false) => normalizeGo root fuel st i (j+1)
        else normalizeGo root fuel st i (j+1)

/-- `Nomalizer.normalize(root, records)`: take the caret, run the
rewrite loop (which may throw from rule 6's ancestor walk), then
`UndoBuffer.updateCaret(range)` — which throws when the pass started
with no selection. -/
def normalize (fuel : Nat) (root : Nat) (w : World) (records : List UndoBufferRecord) :
    Option (Except String (World × List UndoBufferRecord)) :=
  match normalizeGo root fuel { doc := w.doc, range := w.sel, records := records } 0 0 with
  | none => none
  | some (.error e) => some (.error e)
  | some (.ok st) =>
    match st.range with
    | none => some (.error ("updateCaret: null range"))
    | some rng => some (.ok ({ doc := st.doc, sel := some rng }, st.records))

end Nomalizer

namespace Nomalizer

/-- Does the rule chain of `normalize` take any action for a live
inserted `node` of a record targeting `target`?  This follows the
`else if` chain of the source exactly (a chain link whose outer
condition holds but whose inner guard fails takes no action and stops
the chain).  `some (.error _)` is rule 6's null-parent `TypeError`;
`none` is its divergence on a cyclic chain. -/
def ruleAction (d : Doc) (root target node : Nat) : Option (Except String Bool) :=
  if d.isTextNode node && (target == root) then some (.ok true)
  else if hasTextChild d node then
    some (.ok ((!(d.isElement node) || d.isElementTag node ("div")) && (target == root)))
  else if singleBrChild d node then
    some (.ok (!(d.isElementTag node ("p")) && (target == root)))
  else if d.isElementTag node ("br") && (target == root) then some (.ok true)
  else if d.isElementTag node ("br") then
    some (.ok (rule5Cond d node))
  else if d.isElementTag node ("p") then
    hasPAncestor d root (d.nodes.length + 1) (d.parentOf node)
  else some (.ok false)

/-- "Normalization finds no applicable rule": for every live inserted
node of every structural record the rule chain runs to completion
without throwing and takes no action (in particular, rule 6's ancestor
walk, when reached, terminates at the root without finding a `p` and
without dereferencing a null parent). -/
def NoRule (root : Nat) (d : Doc) (records : List UndoBufferRecord) : Prop :=
  ∀ r ∈ records, r.type = RType.childList →
    ∀ n ∈ r.addedNodes, d.parentOf n = some r.target →
      ruleAction d root r.target n = some (.ok false)

end Nomalizer

namespace UndoBuffer

/-- The `compositionstart` handler: refresh the frozen caret from the
live selection, freeze the `nodeValue` of the caret's container, and
reset the scratch buffer.  (The temporary observer started here watches
`childList` mutations only, so a composition that merely edits text
leaves the scratch buffer empty.) -/
def compositionStart (b : UndoBufferState) (w : World) :
    UndoBufferState × Option String × List UndoBufferRecord :=
  let b' := { b with range := w.sel.getD b.range }
  (b', w.doc.nodeValue b'.range.startContainer, [])

/-- The `compositionend` handler.  `data` is `e.data`; `oldValue` and
`tempBuffer` are the values frozen/collected since `compositionstart`.
A non-empty commit synthesizes a `characterData` record carrying the
frozen old value, normalizes the scratch records plus that record, and
pushes the result as one batch; an empty commit (cancelled composition)
reverse-applies the scratch records via `#undo` and pushes nothing.
(The `queueMicrotask` deferral only sequences the rollback; its effect
on the tree and the ring buffer is what is modelled.) -/
def compositionEnd (fuel : Nat) (root : Nat) (data : String) (oldValue : Option String)
    (tempBuffer : List UndoBufferRecord) (b : UndoBufferState) (w : World) :
    Option (Except String (UndoBufferState × World)) :=
  if data.length > 0 then
    let textNode := b.range.startContainer
    let synth : UndoBufferRecord :=
      { type := RType.characterData, target := textNode, addedNodes := [], removedNodes := [],
        previousSibling := w.doc.previousSibling textNode, nextSibling := w.doc.nextSibling textNode,
        attributeName := none, attributeNamespace := none, oldValue := oldValue, newValue := none }
    match Nomalizer.normalize fuel root w (tempBuffer ++ [synth]) with
    | none => none
    | some (Except.error e) => some (Except.error e)
    | some (Except.ok (w1, records)) =>
      match push records false b w1 with
      | Except.ok b1 => some (Except.ok (b1, w1))
      | Except.error e => some (Except.error e)
  else
    some (Except.ok (b, { w with doc := (undoRecords w.doc tempBuffer).2 }))

end UndoBuffer

/-! ## Ring-buffer claims -/

/-- Membership in the circular half-open window `[off, endP)` of the
specification (empty when `off = endP`). -/
def inWindow (off endP i : Int) : Prop :=
  if off < endP then off ≤ i ∧ i < endP
  else if endP < off then off ≤ i ∨ i < endP
  else False

instance (off endP i : Int) : Decidable (inWindow off endP i) := by
  unfold inWindow; infer_instance

/-- C3: `#existBuffer` returns false everywhere when `offset = endPos`,
and otherwise accepts exactly the indices of the circular window
`[offset, endPos)`: for `offset < endPos` the test is
`offset ≤ i < endPos`, for `offset > endPos` it is
`i ≥ offset ∨ i < endPos` (for any in-range index `0 ≤ i < C`). -/
theorem existBuffer_window (b : UndoBufferState) :
    (b.offset = b.endPos → ∀ i : Int, UndoBuffer.existBuffer b i = false) ∧
    (∀ i : Int, 0 ≤ i → i < b.bufferSize →
      (UndoBuffer.existBuffer b i = true ↔
        b.offset ≠ b.endPos ∧
          ((b.offset < b.endPos ∧ b.offset ≤ i ∧ i < b.endPos) ∨
           (b.endPos < b.offset ∧ (i ≥ b.offset ∨ i < b.endPos))))) := by
  constructor
  · intro h i
    simp [UndoBuffer.existBuffer, h]
  · intro i h0 h1
    unfold UndoBuffer.existBuffer
    split_ifs with hne hlt
    · simp only [decide_eq_true_eq, Bool.and_eq_true, decide_eq_true_iff]
      constructor
      · rintro ⟨ha, hb⟩
        exact ⟨hne, Or.inl ⟨hlt, ha, hb⟩⟩
      · rintro ⟨-, h⟩
        rcases h with ⟨-, ha, hb⟩ | ⟨hgt, -⟩
        · exact ⟨ha, hb⟩
        · omega
    · simp only [Bool.or_eq_true, Bool.and_eq_true, decide_eq_true_iff]
      constructor
      · rintro (⟨ha, hb⟩ | ⟨ha, hb⟩)
        · exact ⟨hne, Or.inr ⟨by omega, Or.inl ha⟩⟩
        · exact ⟨hne, Or.inr ⟨by omega, Or.inr hb⟩⟩
      · rintro ⟨-, h⟩
        rcases h with ⟨hlt2, -⟩ | ⟨-, ha | hb⟩
        · omega
        · exact Or.inl ⟨ha, by omega⟩
        · exact Or.inr ⟨by omega, hb⟩
    · simp only [Bool.false_eq_true, false_iff]
      rintro ⟨hne2, -⟩
      exact hne2 (by omega)

/-- A piece used by concrete witness states. -/
def pieceW : UndoBufferPiece :=
  { records := [], oldRange := default, newRange := some default }

/-- A concrete wrapped ring-buffer state (capacity 3, window `[2, 1)`). -/
def bufW : UndoBufferState :=
  { bufferSize := 3, offset := 2, pos := 0, endPos := 1,
    buffer := [some pieceW, none, some pieceW], range := default }

/-- Witness for `existBuffer_window` at the wrapped state `bufW` and
index 0 (inside the wrapped window). -/
theorem existBuffer_window_witness :
    UndoBuffer.existBuffer bufW 0 = true ↔
      bufW.offset ≠ bufW.endPos ∧
        ((bufW.offset < bufW.endPos ∧ bufW.offset ≤ 0 ∧ (0 : Int) < bufW.endPos) ∨
         (bufW.endPos < bufW.offset ∧ ((0 : Int) ≥ bufW.offset ∨ (0 : Int) < bufW.endPos))) :=
  (existBuffer_window bufW).2 0 (by decide) (by decide)

/-- C10: `push(records, true)` on a state whose most-recently-written
slot `(pos - 1) mod C` is valid only appends `records` to that slot's
record list: the slot's caret snapshots, the three indices, the
capacity, `#range` and every other slot are unchanged. -/
theorem push_appendToLast_frame (recs : List UndoBufferRecord) (b : UndoBufferState) (w : World)
    (p : UndoBufferPiece)
    (hsz : 0 < b.bufferSize)
    (hvalid : UndoBuffer.existBuffer b ((b.pos + b.bufferSize - 1).tmod b.bufferSize) = true)
    (hslot : b.buffer.getD ((b.pos + b.bufferSize - 1).tmod b.bufferSize).toNat none = some p) :
    ∃ b', UndoBuffer.push recs true b w = Except.ok b' ∧
      b'.offset = b.offset ∧ b'.pos = b.pos ∧ b'.endPos = b.endPos ∧
      b'.bufferSize = b.bufferSize ∧ b'.range = b.range ∧
      b'.buffer.getD ((b.pos + b.bufferSize - 1).tmod b.bufferSize).toNat none =
        some { records := p.records ++ recs, oldRange := p.oldRange, newRange := p.newRange } ∧
      (∀ k : Nat, k ≠ ((b.pos + b.bufferSize - 1).tmod b.bufferSize).toNat →
        b'.buffer.getD k none = b.buffer.getD k none) := by
  set wp := ((b.pos + b.bufferSize - 1).tmod b.bufferSize).toNat with hwp
  have hle : ¬ (b.bufferSize ≤ 0) := by omega
  have hlen : wp < b.buffer.length := by
    by_contra hh
    push_neg at hh
    rw [List.getD_eq_getElem?_getD, List.getElem?_eq_none hh] at hslot
    simp at hslot
  refine ⟨{ b with buffer := b.buffer.set wp (some { p with records := p.records ++ recs }) },
    ?_, rfl, rfl, rfl, rfl, rfl, ?_, ?_⟩
  · simp only [UndoBuffer.push, hle, if_false, if_true, hvalid, hslot]
  · simp [List.getD_eq_getElem?_getD, List.getElem?_set_self hlen]
  · intro k hk
    simp [List.getD_eq_getElem?_getD, List.getElem?_set_ne (Ne.symm hk)]

/-- Witness for `push_appendToLast_frame`: appending to the valid slot
2 of the wrapped state `bufW`. -/
theorem push_appendToLast_frame_witness :
    ∃ b', UndoBuffer.push [] true bufW { doc := default, sel := none } = Except.ok b' ∧
      b'.offset = bufW.offset ∧ b'.pos = bufW.pos ∧ b'.endPos = bufW.endPos ∧
      b'.bufferSize = bufW.bufferSize ∧ b'.range = bufW.range ∧
      b'.buffer.getD ((bufW.pos + bufW.bufferSize - 1).tmod bufW.bufferSize).toNat none =
        some { records := pieceW.records ++ [], oldRange := pieceW.oldRange, newRange := pieceW.newRange } ∧
      (∀ k : Nat, k ≠ ((bufW.pos + bufW.bufferSize - 1).tmod bufW.bufferSize).toNat →
        b'.buffer.getD k none = bufW.buffer.getD k none) :=
  push_appendToLast_frame [] bufW { doc := default, sel := none } pieceW
    (by decide) (by decide) (by decide)

theorem clearSlots_length (p : Nat → Bool) (l : List (Option UndoBufferPiece)) (k : Nat) :
    (UndoBuffer.clearSlots p l k).length = l.length := by
  induction l generalizing k with
  | nil => rfl
  | cons x rest ih => simp [UndoBuffer.clearSlots, ih]

theorem clearSlots_getD (p : Nat → Bool) (l : List (Option UndoBufferPiece)) (k m : Nat)
    (h : m < l.length) :
    (UndoBuffer.clearSlots p l k).getD m none = if p (k + m) then none else l.getD m none := by
  induction l generalizing k m with
  | nil => simp at h
  | cons x rest ih =>
    cases m with
    | zero => simp [UndoBuffer.clearSlots, List.getD]
    | succ m =>
      have h' : m < rest.length := by simpa using h
      simp only [UndoBuffer.clearSlots, List.getD_cons_succ]
      rw [ih (k + 1) m h']
      have : k + 1 + m = k + (m + 1) := by omega
      rw [this]

theorem tmod_small (x n : Int) (h0 : 0 ≤ x) (h1 : x < n) : x.tmod n = x := by
  rw [Int.tmod_eq_emod h0 (by omega)]
  exact Int.emod_eq_of_lt h0 h1

theorem tmod_wrap (n : Int) (h : 0 < n) : n.tmod n = 0 := by
  rw [Int.tmod_eq_emod (le_of_lt h) (le_of_lt h)]
  exact Int.emod_self


/-- C2: after a state in which redo is available (the state left by one
or more successful `undo()` calls), pushing a new batch with
`appendToLast = false` clears every slot outside the new circular
window `[offset, endPos)` and makes it invalid, so no later `redo()`
can replay it. -/
theorem push_new_branch_invalidation (recs : List UndoBufferRecord) (b : UndoBufferState)
    (w : World)
    (hoff0 : 0 ≤ b.offset) (hoffs : b.offset < b.bufferSize)
    (hend0 : 0 ≤ b.endPos) (hends : b.endPos < b.bufferSize)
    (hpos0 : 0 ≤ b.pos) (hposs : b.pos < b.bufferSize)
    (hredo : UndoBuffer.existBuffer b b.pos = true) :
    ∃ b', UndoBuffer.push recs false b w = Except.ok b' ∧
      ∀ k : Nat, k < b'.buffer.length → ¬ inWindow b'.offset b'.endPos (k : Int) →
        b'.buffer.getD k none = none ∧ UndoBuffer.existBuffer b' (k : Int) = false := by
  have hne : b.offset ≠ b.endPos := by
    by_contra h
    simp [UndoBuffer.existBuffer, h] at hredo
  have hsz2 : 2 ≤ b.bufferSize := by omega
  have hle : ¬ (b.bufferSize ≤ 0) := by omega
  refine ⟨UndoBuffer.pushNew recs b w, by simp [UndoBuffer.push, hle], ?_⟩
  intro k hk hout
  set pos1 : Int := (b.pos + 1).tmod b.bufferSize with hpos1
  set offset1 : Int := if pos1 = b.offset then (b.offset + 1).tmod b.bufferSize else b.offset
    with hoffset1
  have hpos1v : (b.pos + 1 = b.bufferSize ∧ pos1 = 0) ∨
      (b.pos + 1 < b.bufferSize ∧ pos1 = b.pos + 1) := by
    by_cases h : b.pos + 1 = b.bufferSize
    · exact Or.inl ⟨h, by rw [hpos1, h]; exact tmod_wrap _ (by omega)⟩
    · exact Or.inr ⟨by omega, by rw [hpos1]; exact tmod_small _ _ (by omega) (by omega)⟩
  have hoff1v : (offset1 = b.offset ∧ pos1 ≠ b.offset) ∨
      (pos1 = b.offset ∧
        ((b.offset + 1 = b.bufferSize ∧ offset1 = 0) ∨
         (b.offset + 1 < b.bufferSize ∧ offset1 = b.offset + 1))) := by
    by_cases h : pos1 = b.offset
    · refine Or.inr ⟨h, ?_⟩
      by_cases h2 : b.offset + 1 = b.bufferSize
      · exact Or.inl ⟨h2, by rw [hoffset1, if_pos h, h2]; exact tmod_wrap _ (by omega)⟩
      · exact Or.inr ⟨by omega, by
          rw [hoffset1, if_pos h]; exact tmod_small _ _ (by omega) (by omega)⟩
    · exact Or.inl ⟨by rw [hoffset1, if_neg h], h⟩
  have hne1 : offset1 ≠ pos1 := by
    rcases hpos1v with ⟨ha, hb⟩ | ⟨ha, hb⟩ <;>
      rcases hoff1v with ⟨hc, hd⟩ | ⟨hc, hd | hd⟩ <;> omega
  have hshape : UndoBuffer.pushNew recs b w =
      { b with
        buffer :=
          if offset1 < pos1 then
            UndoBuffer.clearSlots
              (fun i => decide (pos1 ≤ (i : Int)) || decide ((i : Int) < offset1))
              (if b.pos.toNat < b.buffer.length then
                b.buffer.set b.pos.toNat (some (UndoBuffer.mkPiece recs b w))
               else b.buffer ++ [some (UndoBuffer.mkPiece recs b w)]) 0
          else
            UndoBuffer.clearSlots
              (fun i => decide (pos1 ≤ (i : Int)) && decide ((i : Int) < offset1))
              (if b.pos.toNat < b.buffer.length then
                b.buffer.set b.pos.toNat (some (UndoBuffer.mkPiece recs b w))
               else b.buffer ++ [some (UndoBuffer.mkPiece recs b w)]) 0,
        pos := pos1, endPos := pos1, offset := offset1 } := rfl
  have hbo : (UndoBuffer.pushNew recs b w).offset = offset1 := by rw [hshape]
  have hbe : (UndoBuffer.pushNew recs b w).endPos = pos1 := by rw [hshape]
  have hbs : (UndoBuffer.pushNew recs b w).bufferSize = b.bufferSize := by rw [hshape]
  have hbb : (UndoBuffer.pushNew recs b w).buffer =
      (if offset1 < pos1 then
        UndoBuffer.clearSlots
          (fun i => decide (pos1 ≤ (i : Int)) || decide ((i : Int) < offset1))
          (if b.pos.toNat < b.buffer.length then
            b.buffer.set b.pos.toNat (some (UndoBuffer.mkPiece recs b w))
           else b.buffer ++ [some (UndoBuffer.mkPiece recs b w)]) 0
      else
        UndoBuffer.clearSlots
          (fun i => decide (pos1 ≤ (i : Int)) && decide ((i : Int) < offset1))
          (if b.pos.toNat < b.buffer.length then
            b.buffer.set b.pos.toNat (some (UndoBuffer.mkPiece recs b w))
           else b.buffer ++ [some (UndoBuffer.mkPiece recs b w)]) 0) := by
    rw [hshape]
  rw [hbo, hbe] at hout
  rw [hbb] at hk
  have hcases : (offset1 < pos1 ∧ ((k : Int) < offset1 ∨ pos1 ≤ (k : Int))) ∨
      (pos1 < offset1 ∧ (pos1 ≤ (k : Int) ∧ (k : Int) < offset1)) := by
    by_cases hc : offset1 < pos1
    · simp only [inWindow, hc, if_true] at hout
      push_neg at hout
      exact Or.inl ⟨hc, by omega⟩
    · have hlt : pos1 < offset1 := by omega
      simp only [inWindow, if_neg hc, if_pos hlt] at hout
      push_neg at hout
      exact Or.inr ⟨hlt, by omega⟩
  constructor
  · rw [hbb]
    set buf1 := (if b.pos.toNat < b.buffer.length then
        b.buffer.set b.pos.toNat (some (UndoBuffer.mkPiece recs b w))
      else b.buffer ++ [some (UndoBuffer.mkPiece recs b w)]) with hbuf1
    rcases hcases with ⟨hc, hck⟩ | ⟨hc, hck⟩
    · have hk' : k < buf1.length := by
        simpa [hc, clearSlots_length] using hk
      simp only [hc, if_true]
      rw [clearSlots_getD _ _ _ _ hk']
      have hp : (decide (pos1 ≤ (k : Int)) || decide ((k : Int) < offset1)) = true := by
        simp only [Bool.or_eq_true, decide_eq_true_iff]
        omega
      simp [hp]
    · have hnc : ¬ offset1 < pos1 := by omega
      have hk' : k < buf1.length := by
        simpa [hnc, clearSlots_length] using hk
      simp only [hnc, if_false]
      rw [clearSlots_getD _ _ _ _ hk']
      have hp : (decide (pos1 ≤ (k : Int)) && decide ((k : Int) < offset1)) = true := by
        simp only [Bool.and_eq_true, decide_eq_true_iff]
        omega
      simp [hp]
  · unfold UndoBuffer.existBuffer
    rw [hbo, hbe, hbs]
    split_ifs with h1
    all_goals rw [← Bool.not_eq_true]
    all_goals simp only [Bool.or_eq_true, Bool.and_eq_true, decide_eq_true_iff]
    all_goals rcases hcases with ⟨hc, hck⟩ | ⟨hc, hck⟩ <;> omega

/-- A concrete state with redo available (`pos = 1 < endPos = 2`). -/
def bufC2 : UndoBufferState :=
  { bufferSize := 3, offset := 0, pos := 1, endPos := 2,
    buffer := [some pieceW, some pieceW, none], range := default }

/-- Witness for `push_new_branch_invalidation` at `bufC2`. -/
theorem push_new_branch_invalidation_witness :
    ∃ b', UndoBuffer.push [] false bufC2 { doc := default, sel := some default } = Except.ok b' ∧
      ∀ k : Nat, k < b'.buffer.length → ¬ inWindow b'.offset b'.endPos (k : Int) →
        b'.buffer.getD k none = none ∧ UndoBuffer.existBuffer b' (k : Int) = false :=
  push_new_branch_invalidation [] bufC2 { doc := default, sel := some default }
    (by decide) (by decide) (by decide) (by decide) (by decide) (by decide) (by decide)


/-! ## The normalization loop when no rule applies -/

namespace Nomalizer

theorem ruleAction_f1 (d : Doc) (root target node : Nat)
    (hra : ruleAction d root target node = some (.ok false)) :
    ¬(d.isTextNode node = true ∧ target = root) := by
  rintro ⟨h1, h2⟩
  unfold ruleAction at hra
  rw [if_pos (by simp [h1, h2] : (d.isTextNode node && (target == root)) = true)] at hra
  simp at hra

theorem ruleAction_f2 (d : Doc) (root target node : Nat)
    (hra : ruleAction d root target node = some (.ok false))
    (hhtc : hasTextChild d node = true) :
    ¬((¬ d.isElement node = true ∨ d.isElementTag node ("div") = true) ∧ target = root) := by
  rintro ⟨hor, hr⟩
  unfold ruleAction at hra
  by_cases h1 : (d.isTextNode node && (target == root)) = true
  · rw [if_pos h1] at hra; simp at hra
  · rw [if_neg h1, if_pos hhtc] at hra
    apply absurd hra
    rcases hor with h | h
    · have h' : d.isElement node = false := by simpa using h
      simp [h', hr]
    · simp [h, hr]

theorem ruleAction_f3 (d : Doc) (root target node : Nat)
    (hra : ruleAction d root target node = some (.ok false))
    (hhtc : hasTextChild d node = false) (hsbr : singleBrChild d node = true) :
    ¬(¬ d.isElementTag node ("p") = true ∧ target = root) := by
  rintro ⟨hp0, hr⟩
  have hp : d.isElementTag node ("p") = false := by simpa using hp0
  unfold ruleAction at hra
  by_cases h1 : (d.isTextNode node && (target == root)) = true
  · rw [if_pos h1] at hra; simp at hra
  · rw [if_neg h1, if_neg (by simp [hhtc] : ¬ hasTextChild d node = true),
      if_pos hsbr] at hra
    apply absurd hra
    simp [hp, hr]

theorem ruleAction_f4 (d : Doc) (root target node : Nat)
    (hra : ruleAction d root target node = some (.ok false))
    (hhtc : hasTextChild d node = false) (hsbr : singleBrChild d node = false) :
    ¬(d.isElementTag node ("br") = true ∧ target = root) := by
  rintro ⟨hbr, hr⟩
  unfold ruleAction at hra
  by_cases h1 : (d.isTextNode node && (target == root)) = true
  · rw [if_pos h1] at hra; simp at hra
  · rw [if_neg h1, if_neg (by simp [hhtc] : ¬ hasTextChild d node = true),
      if_neg (by simp [hsbr] : ¬ singleBrChild d node = true),
      if_pos (by simp [hbr, hr] : (d.isElementTag node ("br") && (target == root)) = true)] at hra
    simp at hra

theorem ruleAction_f5 (d : Doc) (root target node : Nat)
    (hra : ruleAction d root target node = some (.ok false))
    (hhtc : hasTextChild d node = false) (hsbr : singleBrChild d node = false)
    (hbr : d.isElementTag node ("br") = true) (hnroot : ¬ target = root) :
    rule5Cond d node = false := by
  unfold ruleAction at hra
  by_cases h1 : (d.isTextNode node && (target == root)) = true
  · rw [if_pos h1] at hra; simp at hra
  · rw [if_neg h1, if_neg (by simp [hhtc] : ¬ hasTextChild d node = true),
      if_neg (by simp [hsbr] : ¬ singleBrChild d node = true),
      if_neg (by simp [hnroot] : ¬ (d.isElementTag node ("br") && (target == root)) = true),
      if_pos hbr] at hra
    simpa using hra

theorem ruleAction_f6 (d : Doc) (root target node : Nat)
    (hra : ruleAction d root target node = some (.ok false))
    (hhtc : hasTextChild d node = false) (hsbr : singleBrChild d node = false)
    (hbr : d.isElementTag node ("br") = false) (hp : d.isElementTag node ("p") = true) :
    hasPAncestor d root (d.nodes.length + 1) (d.parentOf node) = some (.ok false) := by
  unfold ruleAction at hra
  by_cases h1 : (d.isTextNode node && (target == root)) = true
  · rw [if_pos h1] at hra; simp at hra
  · rw [if_neg h1, if_neg (by simp [hhtc] : ¬ hasTextChild d node = true),
      if_neg (by simp [hsbr] : ¬ singleBrChild d node = true),
      if_neg (by simp [hbr] : ¬ (d.isElementTag node ("br") && (target == root)) = true),
      if_neg (by simp [hbr] : ¬ d.isElementTag node ("br") = true),
      if_pos hp] at hra
    exact hra

end Nomalizer

theorem normalizeGo_noRule_step (root : Nat) (st : Nomalizer.NSt) (i j fuel : Nat)
    (h : Nomalizer.NoRule root st.doc st.records) :
    Nomalizer.normalizeGo root (fuel + 1) st i j =
      if i ≥ st.records.length then some (.ok st)
      else if (st.records.getD i default).type ≠ RType.childList ∨
              j ≥ (st.records.getD i default).addedNodes.length then
        Nomalizer.normalizeGo root fuel st (i + 1) 0
      else Nomalizer.normalizeGo root fuel st i (j + 1) := by
  by_cases hlen : i ≥ st.records.length
  · rw [if_pos hlen]
    simp only [Nomalizer.normalizeGo]
    rw [if_pos hlen]
  · rw [if_neg hlen]
    by_cases htype : (st.records.getD i default).type = RType.childList
    · by_cases hj : j ≥ (st.records.getD i default).addedNodes.length
      · rw [if_pos (Or.inr hj)]
        simp only [Nomalizer.normalizeGo]
        rw [if_neg hlen, if_neg (not_not_intro htype), if_pos hj]
      · rw [if_neg (show ¬ ((st.records.getD i default).type ≠ RType.childList ∨
              j ≥ (st.records.getD i default).addedNodes.length) by
            push_neg
            exact ⟨htype, by omega⟩)]
        have hopmem : st.records.getD i default ∈ st.records := by
          rw [List.getD_eq_getElem st.records default (by omega : i < st.records.length)]
          exact List.getElem_mem _
        have hnodemem : (st.records.getD i default).addedNodes.getD j 0 ∈
            (st.records.getD i default).addedNodes := by
          rw [List.getD_eq_getElem ((st.records.getD i default).addedNodes) 0
            (by omega : j < (st.records.getD i default).addedNodes.length)]
          exact List.getElem_mem _
        simp only [Nomalizer.normalizeGo]
        rw [if_neg hlen, if_neg (not_not_intro htype), if_neg hj]
        by_cases hpar : st.doc.parentOf ((st.records.getD i default).addedNodes.getD j 0) =
            some (st.records.getD i default).target
        · have hra := h _ hopmem htype _ hnodemem hpar
          rw [if_neg (not_not_intro hpar)]
          rw [if_neg (Nomalizer.ruleAction_f1 _ _ _ _ hra)]
          by_cases hhtc : Nomalizer.hasTextChild st.doc
              ((st.records.getD i default).addedNodes.getD j 0) = true
          · rw [if_pos hhtc, if_neg (Nomalizer.ruleAction_f2 _ _ _ _ hra hhtc)]
          · have hhtc' : Nomalizer.hasTextChild st.doc
                ((st.records.getD i default).addedNodes.getD j 0) = false := by
              simpa using hhtc
            rw [if_neg hhtc]
            by_cases hsbr : Nomalizer.singleBrChild st.doc
                ((st.records.getD i default).addedNodes.getD j 0) = true
            · rw [if_pos hsbr, if_neg (Nomalizer.ruleAction_f3 _ _ _ _ hra hhtc' hsbr)]
            · have hsbr' : Nomalizer.singleBrChild st.doc
                  ((st.records.getD i default).addedNodes.getD j 0) = false := by
                simpa using hsbr
              rw [if_neg hsbr]
              rw [if_neg (Nomalizer.ruleAction_f4 _ _ _ _ hra hhtc' hsbr')]
              by_cases hbr : st.doc.isElementTag
                  ((st.records.getD i default).addedNodes.getD j 0) ("br") = true
              · have hnroot : ¬ (st.records.getD i default).target = root := fun hr =>
                  Nomalizer.ruleAction_f4 _ _ _ _ hra hhtc' hsbr' ⟨hbr, hr⟩
                have hf5 := Nomalizer.ruleAction_f5 _ _ _ _ hra hhtc' hsbr' hbr hnroot
                have hf5' : ¬ Nomalizer.rule5Cond st.doc
                    ((st.records.getD i default).addedNodes.getD j 0) = true := by
                  rw [hf5]
                  exact Bool.false_ne_true
                rw [if_pos hbr, if_neg hf5']
              · have hbr' : st.doc.isElementTag
                    ((st.records.getD i default).addedNodes.getD j 0) ("br") = false := by
                  simpa using hbr
                rw [if_neg hbr]
                by_cases hp : st.doc.isElementTag
                    ((st.records.getD i default).addedNodes.getD j 0) ("p") = true
                · have hf6 := Nomalizer.ruleAction_f6 _ _ _ _ hra hhtc' hsbr' hbr' hp
                  rw [if_pos hp, hf6]
                · rw [if_neg hp]
        · rw [if_pos (by simpa using hpar)]
    · rw [if_pos (Or.inl htype)]
      simp only [Nomalizer.normalizeGo]
      rw [if_neg hlen, if_pos htype]

/-- When no rule applies, the rewrite loop never changes its state:
with any fuel it either runs out or returns the state unchanged. -/
theorem normalizeGo_noRule_frozen (root : Nat) (st : Nomalizer.NSt)
    (h : Nomalizer.NoRule root st.doc st.records) :
    ∀ fuel i j, Nomalizer.normalizeGo root fuel st i j = none ∨
      Nomalizer.normalizeGo root fuel st i j = some (.ok st) := by
  intro fuel
  induction fuel with
  | zero => intro i j; exact Or.inl rfl
  | succ fuel ih =>
    intro i j
    rw [normalizeGo_noRule_step root st i j fuel h]
    split_ifs
    · exact Or.inr rfl
    · exact ih (i + 1) 0
    · exact ih i (j + 1)

/-- When no rule applies, some fuel completes the rewrite loop (the JS
loop terminates), returning the state unchanged. -/
theorem normalizeGo_noRule_exists (root : Nat) (st : Nomalizer.NSt)
    (h : Nomalizer.NoRule root st.doc st.records) :
    ∀ i j, ∃ fuel, Nomalizer.normalizeGo root fuel st i j = some (.ok st) := by
  have main : ∀ k i, st.records.length - i ≤ k → ∀ j,
      ∃ fuel, Nomalizer.normalizeGo root fuel st i j = some (.ok st) := by
    intro k
    induction k with
    | zero =>
      intro i hi j
      refine ⟨1, ?_⟩
      rw [normalizeGo_noRule_step root st i j 0 h, if_pos (by omega)]
    | succ k ih =>
      intro i hi j
      by_cases hlen : i ≥ st.records.length
      · refine ⟨1, ?_⟩
        rw [normalizeGo_noRule_step root st i j 0 h, if_pos hlen]
      · have inner : ∀ m jj, (st.records.getD i default).addedNodes.length - jj ≤ m →
            ∃ fuel, Nomalizer.normalizeGo root fuel st i jj = some (.ok st) := by
          intro m
          induction m with
          | zero =>
            intro jj hjj
            obtain ⟨f, hf⟩ := ih (i + 1) (by omega) 0
            refine ⟨f + 1, ?_⟩
            rw [normalizeGo_noRule_step root st i jj f h, if_neg hlen, if_pos (Or.inr (by omega))]
            exact hf
          | succ m ihm =>
            intro jj hjj
            by_cases hcond : (st.records.getD i default).type ≠ RType.childList ∨
                jj ≥ (st.records.getD i default).addedNodes.length
            · obtain ⟨f, hf⟩ := ih (i + 1) (by omega) 0
              refine ⟨f + 1, ?_⟩
              rw [normalizeGo_noRule_step root st i jj f h, if_neg hlen, if_pos hcond]
              exact hf
            · push_neg at hcond
              obtain ⟨f, hf⟩ := ihm (jj + 1) (by omega)
              refine ⟨f + 1, ?_⟩
              rw [normalizeGo_noRule_step root st i jj f h, if_neg hlen,
                if_neg (show ¬ ((st.records.getD i default).type ≠ RType.childList ∨
                  jj ≥ (st.records.getD i default).addedNodes.length) by push_neg; exact hcond)]
              exact hf
        exact inner ((st.records.getD i default).addedNodes.length - j) j le_rfl
  intro i j
  exact main st.records.length i (by omega) j

/-- C9 (amended): the boundary cases degrade to error-free no-ops:
`undo`/`redo` with an invalid read position return the state unchanged,
`push` with zero or negative capacity returns the buffer unchanged, and
`normalize` on a batch for which no rule applies (run with a live
selection) terminates and returns the tree, the caret and the records
unchanged. -/
theorem noop_boundary_cases :
    (∀ (b : UndoBufferState) (w : World),
        UndoBuffer.existBuffer b ((b.pos + b.bufferSize - 1).tmod b.bufferSize) = false →
        UndoBuffer.undo b w = Except.ok (b, w)) ∧
    (∀ (b : UndoBufferState) (w : World),
        UndoBuffer.existBuffer b b.pos = false →
        UndoBuffer.redo b w = Except.ok (b, w)) ∧
    (∀ (recs : List UndoBufferRecord) (mode : Bool) (b : UndoBufferState) (w : World),
        b.bufferSize ≤ 0 → UndoBuffer.push recs mode b w = Except.ok b) ∧
    (∀ (root : Nat) (w : World) (records : List UndoBufferRecord) (rng : Rng),
        w.sel = some rng → Nomalizer.NoRule root w.doc records →
        (∀ fuel res, Nomalizer.normalize fuel root w records = some res →
            res = Except.ok (w, records)) ∧
        (∃ fuel, Nomalizer.normalize fuel root w records = some (Except.ok (w, records)))) := by
  refine ⟨?_, ?_, ?_, ?_⟩
  · intro b w h
    unfold UndoBuffer.undo
    rw [if_neg (by rw [h]; exact Bool.false_ne_true)]
  · intro b w h
    unfold UndoBuffer.redo
    rw [if_neg (by rw [h]; exact Bool.false_ne_true)]
  · intro recs mode b w h
    unfold UndoBuffer.push
    rw [if_pos h]
  · intro root w records rng hsel h
    constructor
    · intro fuel res hres
      unfold Nomalizer.normalize at hres
      rcases normalizeGo_noRule_frozen root ⟨w.doc, w.sel, records⟩ h fuel 0 0 with hcase | hcase
      · rw [hcase] at hres
        exact absurd hres (by simp)
      · rw [hcase] at hres
        simp only [hsel, Option.some.injEq] at hres
        subst hres
        rw [← hsel]
    · obtain ⟨fuel, hf⟩ := normalizeGo_noRule_exists root ⟨w.doc, w.sel, records⟩ h 0 0
      refine ⟨fuel, ?_⟩
      unfold Nomalizer.normalize
      rw [hf]
      simp only [hsel]
      rw [← hsel]

/-- A piece whose `newRange` snapshot is `null` (no selection existed
when it was pushed). -/
def pieceNull : UndoBufferPiece :=
  { records := [], oldRange := default, newRange := none }

/-- A buffer state whose valid slot 0 carries a `null` caret snapshot. -/
def bufErr : UndoBufferState :=
  { bufferSize := 2, offset := 0, pos := 0, endPos := 1,
    buffer := [some pieceNull], range := default }

/-- C9 counterexample: `redo()` on a valid slot whose `newRange` is
`null` reaches `updateCaret(null)` and throws, so not every operation
is error-free for every input and buffer state. -/
theorem redo_null_caret_raises :
    UndoBuffer.redo bufErr { doc := default, sel := none } =
      Except.error ("redo: null caret snapshot") := rfl

/-- Witness for `noop_boundary_cases` at concrete no-op inputs. -/
theorem noop_boundary_cases_witness :
    UndoBuffer.undo (UndoBuffer.initState 3) { doc := default, sel := none } =
      Except.ok (UndoBuffer.initState 3, { doc := default, sel := none }) ∧
    UndoBuffer.redo (UndoBuffer.initState 3) { doc := default, sel := none } =
      Except.ok (UndoBuffer.initState 3, { doc := default, sel := none }) ∧
    UndoBuffer.push [] false (UndoBuffer.initState 0) { doc := default, sel := none } =
      Except.ok (UndoBuffer.initState 0) ∧
    (∃ fuel, Nomalizer.normalize fuel 0 { doc := default, sel := some default } [] =
      some (Except.ok (({ doc := default, sel := some default } : World), []))) :=
  ⟨noop_boundary_cases.1 _ _ (by decide),
   noop_boundary_cases.2.1 _ _ (by decide),
   noop_boundary_cases.2.2.1 [] false _ _ (by decide),
   (noop_boundary_cases.2.2.2 0 { doc := default, sel := some default } [] default rfl
     (by intro r hr; cases hr)).2⟩

/-! ## Well-formed documents and the record-inverse machinery -/

/-- `n` sits in no children list: a detached node. -/
def Detached (d : Doc) (n : Nat) : Prop :=
  ∀ e ∈ d.nodes, n ∉ e.2.children

/-- Well-formedness of a document: unique node ids, duplicate-free
children lists, each node attached to at most one parent, and
canonically sorted attribute maps. -/
structure Wf (d : Doc) : Prop where
  keys : (d.nodes.map Prod.fst).Nodup
  childNodup : ∀ e ∈ d.nodes, e.2.children.Nodup
  childUnique : ∀ (k1 k2 : Nat) (d1 d2 : NData) (c : Nat),
    (k1, d1) ∈ d.nodes → (k2, d2) ∈ d.nodes → c ∈ d1.children → c ∈ d2.children → k1 = k2
  attrsSorted : ∀ e ∈ d.nodes, e.2.attrs.Pairwise (fun a b => keyLt a.1 b.1 = true)

theorem updateNode_nodes (d : Doc) (n : Nat) (f : NData → NData) :
    (d.updateNode n f).nodes = d.nodes.map (fun e => if e.1 = n then (e.1, f e.2) else e) := rfl

theorem updateNode_updateNode (d : Doc) (n : Nat) (f g : NData → NData) :
    (d.updateNode n f).updateNode n g = d.updateNode n (fun x => g (f x)) := by
  unfold Doc.updateNode
  simp only [List.map_map, Doc.mk.injEq, and_true]
  apply List.map_congr_left
  intro e _
  by_cases h : e.1 = n <;> simp [Function.comp, h]

theorem lookup_nodes_aux (l : List (Nat × NData)) (n m : Nat) (f : NData → NData) :
    ((l.map (fun e => if e.1 = n then (e.1, f e.2) else e)).find? (fun e => e.1 == m)) =
      if m = n then (l.find? (fun e => e.1 == m)).map (fun e => (e.1, f e.2))
      else l.find? (fun e => e.1 == m) := by
  induction l with
  | nil => by_cases hm : m = n <;> simp [hm, List.find?]
  | cons e rest ih =>
    by_cases he : e.1 = m
    · have hb1 : (((e.1, f e.2) : Nat × NData).1 == m) = true := by simpa using he
      have hb2 : (e.1 == m) = true := by simpa using he
      by_cases hk : e.1 = n
      · simp only [List.map_cons, if_pos hk, List.find?_cons, hb1, hb2]
        rw [if_pos (show m = n by omega)]
        simp
      · simp only [List.map_cons, if_neg hk, List.find?_cons, hb2]
        rw [if_neg (show ¬ m = n by omega)]
    · have hb2 : (e.1 == m) = false := by simpa using he
      by_cases hk : e.1 = n
      · have hb1 : (((e.1, f e.2) : Nat × NData).1 == m) = false := by simpa using he
        simp only [List.map_cons, if_pos hk, List.find?_cons, hb1, hb2]
        exact ih
      · simp only [List.map_cons, if_neg hk, List.find?_cons, hb2]
        exact ih

theorem lookup_updateNode (d : Doc) (n m : Nat) (f : NData → NData) :
    (d.updateNode n f).lookup m =
      if m = n then (d.lookup m).map f else d.lookup m := by
  unfold Doc.lookup
  rw [updateNode_nodes, lookup_nodes_aux]
  by_cases hm : m = n
  · rw [if_pos hm, if_pos hm, Option.map_map, Option.map_map]
    rcases d.nodes.find? (fun e => e.1 == m) with _ | e <;> rfl
  · rw [if_neg hm, if_neg hm]

theorem lookup_updateNode_self (d : Doc) (n : Nat) (f : NData → NData) :
    (d.updateNode n f).lookup n = (d.lookup n).map f := by
  rw [lookup_updateNode, if_pos rfl]

theorem lookup_updateNode_ne (d : Doc) (n m : Nat) (f : NData → NData) (h : m ≠ n) :
    (d.updateNode n f).lookup m = d.lookup m := by
  rw [lookup_updateNode, if_neg h]

theorem lookup_mem (d : Doc) (n : Nat) (nd : NData) (h : d.lookup n = some nd) :
    (n, nd) ∈ d.nodes := by
  unfold Doc.lookup at h
  rcases hfind : d.nodes.find? (fun e => e.1 == n) with _ | e
  · rw [hfind] at h
    exact Option.noConfusion h
  · rw [hfind] at h
    have h2 : e.2 = nd := by simpa using h
    have hmem := List.mem_of_find?_eq_some hfind
    have hkey := List.find?_some hfind
    simp only [beq_iff_eq] at hkey
    rw [← h2, ← hkey]
    exact hmem

theorem find?_of_mem_nodup (l : List (Nat × NData)) (n : Nat) (nd : NData)
    (hk : (l.map Prod.fst).Nodup) (h : (n, nd) ∈ l) :
    l.find? (fun e => e.1 == n) = some (n, nd) := by
  revert hk h
  induction l with
  | nil =>
    intro hk h
    cases h
  | cons e rest ih =>
    intro hk h
    simp only [List.map_cons, List.nodup_cons] at hk
    rcases List.mem_cons.mp h with h | h
    · subst h
      exact List.find?_cons_of_pos _ (by simp)
    · have hne : (e.1 == n) = false := by
        simp only [beq_eq_false_iff_ne, ne_eq]
        intro hcon
        exact hk.1 (hcon ▸ (List.mem_map_of_mem Prod.fst h))
      rw [List.find?_cons, hne]
      exact ih hk.2 h

theorem mem_lookup (d : Doc) (n : Nat) (nd : NData) (hk : (d.nodes.map Prod.fst).Nodup)
    (h : (n, nd) ∈ d.nodes) : d.lookup n = some nd := by
  unfold Doc.lookup
  rw [find?_of_mem_nodup d.nodes n nd hk h]
  rfl

theorem map_update_id_of_not_key (l : List (Nat × NData)) (n : Nat) (f : NData → NData)
    (h : n ∉ l.map Prod.fst) :
    l.map (fun e => if e.1 = n then (e.1, f e.2) else e) = l := by
  induction l with
  | nil => rfl
  | cons e rest ih =>
    simp only [List.map_cons, List.mem_cons] at h
    push_neg at h
    rw [List.map_cons, if_neg (fun hc => h.1 hc.symm), ih h.2]

theorem map_update_congr (l : List (Nat × NData)) (n : Nat) (f g : NData → NData)
    (hk : (l.map Prod.fst).Nodup)
    (h : ∀ nd, (l.find? (fun e => e.1 == n)).map (·.2) = some nd → f nd = g nd) :
    l.map (fun e => if e.1 = n then (e.1, f e.2) else e) =
      l.map (fun e => if e.1 = n then (e.1, g e.2) else e) := by
  revert hk h
  induction l with
  | nil => intro hk h; rfl
  | cons e rest ih =>
    intro hk h
    simp only [List.map_cons, List.nodup_cons] at hk
    by_cases he : e.1 = n
    · have hfg : f e.2 = g e.2 := by
        apply h
        rw [List.find?_cons_of_pos _ (by simp [he])]
        rfl
      rw [List.map_cons, List.map_cons, if_pos he, if_pos he, hfg]
      rw [map_update_id_of_not_key rest n f (he ▸ hk.1), map_update_id_of_not_key rest n g (he ▸ hk.1)]
    · rw [List.map_cons, List.map_cons, if_neg he, if_neg he]
      rw [ih hk.2]
      intro nd hnd
      apply h
      rw [List.find?_cons, (by simpa using he : (e.1 == n) = false)]
      exact hnd

theorem updateNode_congr (d : Doc) (n : Nat) (f g : NData → NData)
    (hk : (d.nodes.map Prod.fst).Nodup)
    (h : ∀ nd, d.lookup n = some nd → f nd = g nd) :
    d.updateNode n f = d.updateNode n g := by
  unfold Doc.updateNode
  rw [Doc.mk.injEq]
  exact ⟨map_update_congr d.nodes n f g hk h, rfl⟩

theorem updateNode_id (d : Doc) (n : Nat) : d.updateNode n (fun x => x) = d := by
  unfold Doc.updateNode
  rw [Doc.mk.injEq]
  refine ⟨?_, rfl⟩
  rw [show (fun (e : Nat × NData) => if e.1 = n then (e.1, e.2) else e) = fun e => e by
    funext e
    by_cases h : e.1 = n
    · rw [if_pos h]
    · rw [if_neg h]]
  exact List.map_id _

theorem updateNode_eq_self (d : Doc) (n : Nat) (f : NData → NData)
    (hk : (d.nodes.map Prod.fst).Nodup)
    (h : ∀ nd, d.lookup n = some nd → f nd = nd) :
    d.updateNode n f = d := by
  rw [updateNode_congr d n f (fun x => x) hk h]
  exact updateNode_id d n

theorem childrenOf_updateNode_ne (d : Doc) (n m : Nat) (f : NData → NData) (h : m ≠ n) :
    (d.updateNode n f).childrenOf m = d.childrenOf m := by
  unfold Doc.childrenOf
  rw [lookup_updateNode_ne _ _ _ _ h]

theorem childrenOf_updateNode_self (d : Doc) (n : Nat) (f : NData → NData) (nd : NData)
    (h : d.lookup n = some nd) :
    (d.updateNode n f).childrenOf n = (f nd).children := by
  unfold Doc.childrenOf
  rw [lookup_updateNode_self, h]
  rfl

theorem childrenOf_lookup (d : Doc) (n : Nat) (nd : NData) (h : d.lookup n = some nd) :
    d.childrenOf n = nd.children := by
  unfold Doc.childrenOf
  rw [h]

theorem updateNode_keys (d : Doc) (n : Nat) (f : NData → NData) :
    (d.updateNode n f).nodes.map Prod.fst = d.nodes.map Prod.fst := by
  rw [updateNode_nodes, List.map_map]
  apply List.map_congr_left
  intro e _
  by_cases h : e.1 = n <;> simp [h, Function.comp]

theorem mem_updateNode_elim (d : Doc) (n : Nat) (f : NData → NData) (e : Nat × NData)
    (he : e ∈ (d.updateNode n f).nodes) :
    ∃ e0 ∈ d.nodes, e = if e0.1 = n then (e0.1, f e0.2) else e0 := by
  rw [updateNode_nodes] at he
  obtain ⟨e0, he0, hh⟩ := List.mem_map.mp he
  exact ⟨e0, he0, hh.symm⟩

theorem detachAll_eq_self (d : Doc) (n : Nat) (h : Detached d n) : d.detachAll n = d := by
  unfold Doc.detachAll
  rw [Doc.mk.injEq]
  refine ⟨?_, rfl⟩
  have : ∀ e ∈ d.nodes, (e.1, { e.2 with children := e.2.children.erase n }) = e := by
    intro e he
    rw [List.erase_of_not_mem (h e he)]
  calc d.nodes.map (fun e => (e.1, { e.2 with children := e.2.children.erase n }))
      = d.nodes.map (fun e => e) := List.map_congr_left this
    _ = d.nodes := List.map_id _

theorem insertBefore_detached (d : Doc) (t a : Nat) (ref : Option Nat) (h : Detached d a) :
    d.insertBefore t a ref =
      d.updateNode t (fun nd => { nd with children := insertBeforeList nd.children a ref }) := by
  unfold Doc.insertBefore
  rw [detachAll_eq_self _ _ h]

/-! ### Attribute-map lemmas -/

theorem optStrLt_irrefl (a : Option String) : optStrLt a a = false := by
  cases a <;> simp [optStrLt]

theorem optStrLt_ne (a b : Option String) (h : optStrLt a b = true) : a ≠ b := by
  intro hc
  rw [hc, optStrLt_irrefl] at h
  cases h

theorem optStrLt_asymm (a b : Option String) (h : optStrLt a b = true) :
    optStrLt b a = false := by
  cases a <;> cases b <;> simp_all [optStrLt]
  exact le_of_lt h

theorem keyLt_irrefl (a : AttrKey) : keyLt a a = false := by
  simp [keyLt, optStrLt_irrefl]

theorem keyLt_ne (a b : AttrKey) (h : keyLt a b = true) : a ≠ b := by
  intro hc
  rw [hc, keyLt_irrefl] at h
  cases h

theorem keyLt_asymm (a b : AttrKey) (h : keyLt a b = true) : keyLt b a = false := by
  simp only [keyLt, Bool.or_eq_true, Bool.and_eq_true, beq_iff_eq] at h ⊢
  rw [Bool.or_eq_false_iff, Bool.and_eq_false_iff]
  rcases h with h | ⟨h1, h2⟩
  · refine ⟨optStrLt_asymm _ _ h, Or.inl ?_⟩
    simp only [beq_eq_false_iff_ne, ne_eq]
    exact fun hc => optStrLt_ne _ _ h hc.symm
  · refine ⟨by rw [h1, optStrLt_irrefl], Or.inr (optStrLt_asymm _ _ h2)⟩

theorem getAttrList_cons (e : AttrKey × String) (l : List (AttrKey × String)) (k : AttrKey) :
    getAttrList (e :: l) k = if e.1 = k then some e.2 else getAttrList l k := by
  unfold getAttrList
  by_cases h : e.1 = k
  · rw [List.find?_cons_of_pos _ (by simpa using h), if_pos h]
    rfl
  · rw [List.find?_cons, (by simpa using h : (e.1 == k) = false), if_neg h]

theorem getAttrList_some_mem (l : List (AttrKey × String)) (k : AttrKey) (v : String)
    (h : getAttrList l k = some v) : (k, v) ∈ l := by
  unfold getAttrList at h
  rcases hfind : l.find? (fun e => e.1 == k) with _ | e
  · rw [hfind] at h
    exact Option.noConfusion h
  · rw [hfind] at h
    have h2 : e.2 = v := by simpa using h
    have hmem := List.mem_of_find?_eq_some hfind
    have hkey := List.find?_some hfind
    simp only [beq_iff_eq] at hkey
    rw [← h2, ← hkey]
    exact hmem

theorem setAttrList_setAttrList (l : List (AttrKey × String)) (k : AttrKey) (v1 v2 : String) :
    setAttrList (setAttrList l k v1) k v2 = setAttrList l k v2 := by
  induction l with
  | nil => simp [setAttrList]
  | cons e rest ih =>
    obtain ⟨k0, v0⟩ := e
    by_cases h : k0 = k
    · simp [setAttrList, h]
    · by_cases h2 : keyLt k k0 = true
      · simp [setAttrList, h, h2, keyLt_irrefl]
      · simp only [setAttrList, if_neg h, if_neg (by simp [h2] : ¬ keyLt k k0 = true), ih]

theorem setAttrList_eq_self (l : List (AttrKey × String)) (k : AttrKey) (v : String)
    (hs : l.Pairwise (fun a b => keyLt a.1 b.1 = true))
    (h : getAttrList l k = some v) : setAttrList l k v = l := by
  induction l with
  | nil => simp [getAttrList] at h
  | cons e rest ih =>
    obtain ⟨k0, v0⟩ := e
    rw [List.pairwise_cons] at hs
    rw [getAttrList_cons] at h
    by_cases hk : k0 = k
    · rw [if_pos hk] at h
      simp only [Option.some.injEq] at h
      rw [setAttrList, if_pos hk, ← h, hk]
    · rw [if_neg hk] at h
      by_cases h2 : keyLt k k0 = true
      · exfalso
        have hmem := getAttrList_some_mem rest k v h
        have := hs.1 (k, v) hmem
        rw [keyLt_asymm _ _ h2] at this
        cases this
      · rw [setAttrList.eq_def]
        simp only [if_neg hk, if_neg (by simp [h2] : ¬ keyLt k k0 = true)]
        rw [ih hs.2 h]

theorem removeAttrList_eq_self (l : List (AttrKey × String)) (k : AttrKey)
    (h : getAttrList l k = none) : removeAttrList l k = l := by
  unfold removeAttrList
  apply List.filter_eq_self.mpr
  intro e he
  unfold getAttrList at h
  have := List.find?_eq_none.mp (by
    rcases hf : l.find? (fun e => e.1 == k) with _ | x
    · rfl
    · rw [hf] at h
      exact Option.noConfusion h) e he
  simpa using this

theorem removeAttrList_setAttrList (l : List (AttrKey × String)) (k : AttrKey) (v : String) :
    removeAttrList (setAttrList l k v) k = removeAttrList l k := by
  induction l with
  | nil => simp [setAttrList, removeAttrList, List.filter]
  | cons e rest ih =>
    obtain ⟨k0, v0⟩ := e
    by_cases h : k0 = k
    · simp only [setAttrList, if_pos h]
      unfold removeAttrList
      simp only [List.filter]
      rw [(by simp : (!((k, v).1 == k)) = false), (by simp [h] : (!(((k0, v0) : AttrKey × String).1 == k)) = false)]
    · by_cases h2 : keyLt k k0 = true
      · simp only [setAttrList, if_neg h, if_pos h2]
        unfold removeAttrList
        simp only [List.filter]
        rw [(by simp : (!((k, v).1 == k)) = false)]
      · simp only [setAttrList, if_neg h, if_neg (by simp [h2] : ¬ keyLt k k0 = true)]
        unfold removeAttrList at ih ⊢
        simp only [List.filter]
        rcases hb : (!(((k0, v0) : AttrKey × String).1 == k)) with _ | _
        · exact ih
        · rw [ih]

theorem setAttrList_removeAttrList (l : List (AttrKey × String)) (k : AttrKey) (v : String)
    (hs : l.Pairwise (fun a b => keyLt a.1 b.1 = true))
    (h : getAttrList l k = some v) : setAttrList (removeAttrList l k) k v = l := by
  induction l with
  | nil => simp [getAttrList] at h
  | cons e rest ih =>
    obtain ⟨k0, v0⟩ := e
    rw [List.pairwise_cons] at hs
    rw [getAttrList_cons] at h
    by_cases hk : k0 = k
    · rw [if_pos hk] at h
      simp only [Option.some.injEq] at h
      have hfindnone : rest.find? (fun e => e.1 == k) = none := by
        apply List.find?_eq_none.mpr
        intro e he
        have hthis := hs.1 e he
        simp only [beq_iff_eq]
        intro hc
        rw [hc, ← hk] at hthis
        exact absurd hthis (by rw [keyLt_irrefl]; simp)
      have hrest : getAttrList rest k = none := by
        unfold getAttrList
        rw [hfindnone]
        rfl
      unfold removeAttrList
      simp only [List.filter]
      rw [(by simp [hk] : (!(((k0, v0) : AttrKey × String).1 == k)) = false)]
      rw [show (List.filter (fun e => !(e.1 == k)) rest) = rest from removeAttrList_eq_self rest k hrest]
      cases rest with
      | nil => simp [setAttrList, ← h, hk]
      | cons e2 rest2 =>
        obtain ⟨k2, v2⟩ := e2
        have hlt : keyLt k0 k2 = true := hs.1 (k2, v2) (List.mem_cons_self _ _)
        rw [setAttrList.eq_def]
        simp only
        rw [if_neg (show ¬ k2 = k by
            intro hc
            rw [hc, ← hk] at hlt
            exact absurd hlt (by rw [keyLt_irrefl]; simp)),
          if_pos (by rw [hk] at hlt; exact hlt), ← h, hk]
    · rw [if_neg hk] at h
      have hmem := getAttrList_some_mem rest k v h
      have hlt : keyLt k0 k = true := hs.1 (k, v) hmem
      unfold removeAttrList
      simp only [List.filter]
      rw [(by simp [hk] : (!(((k0, v0) : AttrKey × String).1 == k)) = true)]
      rw [setAttrList.eq_def]
      simp only
      rw [if_neg (show ¬ k0 = k from hk), if_neg (by rw [keyLt_asymm _ _ hlt]; simp)]
      have := ih hs.2 h
      unfold removeAttrList at this
      rw [this]

theorem getAttrList_setAttrList_self (l : List (AttrKey × String)) (k : AttrKey) (v : String) :
    getAttrList (setAttrList l k v) k = some v := by
  induction l with
  | nil => simp [setAttrList, getAttrList, List.find?]
  | cons e rest ih =>
    obtain ⟨k0, v0⟩ := e
    by_cases h : k0 = k
    · simp only [setAttrList, if_pos h]
      rw [getAttrList_cons, if_pos rfl]
    · by_cases h2 : keyLt k k0 = true
      · simp only [setAttrList, if_neg h, if_pos h2]
        rw [getAttrList_cons, if_pos rfl]
      · simp only [setAttrList, if_neg h, if_neg (by simp [h2] : ¬ keyLt k k0 = true)]
        rw [getAttrList_cons, if_neg h]
        exact ih

theorem getAttrList_removeAttrList_self (l : List (AttrKey × String)) (k : AttrKey) :
    getAttrList (removeAttrList l k) k = none := by
  unfold getAttrList removeAttrList
  rw [List.find?_eq_none.mpr]
  · rfl
  · intro e he
    have := (List.mem_filter.mp he).2
    simpa using this

theorem optStrLt_trichotomy (a b : Option String)
    (h1 : optStrLt a b = false) (h2 : optStrLt b a = false) : a = b := by
  cases a with
  | none =>
    cases b with
    | none => rfl
    | some vb => simp [optStrLt] at h1
  | some va =>
    cases b with
    | none => simp [optStrLt] at h2
    | some vb =>
      simp only [optStrLt, decide_eq_false_iff_not, not_lt] at h1 h2
      exact congrArg some (le_antisymm h2 h1)

theorem keyLt_trichotomy (a b : AttrKey)
    (h1 : keyLt a b = false) (h2 : keyLt b a = false) : a = b := by
  obtain ⟨a1, a2⟩ := a
  obtain ⟨b1, b2⟩ := b
  simp only [keyLt, Bool.or_eq_false_iff, Bool.and_eq_false_iff] at h1 h2
  have h1a := h1.1
  have h2a := h2.1
  have hab : a1 = b1 := optStrLt_trichotomy _ _ h1a h2a
  subst hab
  rcases h1.2 with hx | hx
  · simp at hx
  · rcases h2.2 with hy | hy
    · simp at hy
    · rw [optStrLt_trichotomy _ _ hx hy]

theorem pairwise_setAttrList (l : List (AttrKey × String)) (k : AttrKey) (v : String)
    (hs : l.Pairwise (fun a b => keyLt a.1 b.1 = true)) :
    (setAttrList l k v).Pairwise (fun a b => keyLt a.1 b.1 = true) := by
  induction l with
  | nil => simp [setAttrList]
  | cons e rest ih =>
    obtain ⟨k0, v0⟩ := e
    rw [List.pairwise_cons] at hs
    by_cases h : k0 = k
    · simp only [setAttrList, if_pos h]
      rw [List.pairwise_cons]
      exact ⟨fun e2 he2 => by rw [← h]; exact hs.1 e2 he2, hs.2⟩
    · by_cases h2 : keyLt k k0 = true
      · simp only [setAttrList, if_neg h, if_pos h2]
        rw [List.pairwise_cons]
        refine ⟨?_, List.pairwise_cons.mpr hs⟩
        intro e2 he2
        rcases List.mem_cons.mp he2 with he2 | he2
        · rw [he2]
          exact h2
        · -- keyLt is transitive on sorted tails: k < k0 and k0 < e2.1
          have h3 := hs.1 e2 he2
          -- transitivity of keyLt
          simp only [keyLt, Bool.or_eq_true, Bool.and_eq_true, beq_iff_eq] at h2 h3 ⊢
          rcases h2 with h2 | ⟨h2a, h2b⟩ <;> rcases h3 with h3 | ⟨h3a, h3b⟩
          · left
            cases hx1 : k.1 <;> cases hx2 : (k0 : AttrKey).1 <;> cases hx3 : e2.1.1 <;>
              simp_all [optStrLt]
            exact lt_trans ‹_› ‹_›
          · left
            rw [← h3a]
            exact h2
          · left
            rw [h2a]
            exact h3
          · right
            refine ⟨by rw [h2a, h3a], ?_⟩
            cases hx1 : k.2 <;> cases hx2 : (k0 : AttrKey).2 <;> cases hx3 : e2.1.2 <;>
              simp_all [optStrLt]
            exact lt_trans ‹_› ‹_›
      · simp only [setAttrList, if_neg h, if_neg (by simp [h2] : ¬ keyLt k k0 = true)]
        rw [List.pairwise_cons]
        refine ⟨?_, ih hs.2⟩
        intro e2 he2
        -- e2 is in setAttrList rest k v: key is k or an old key
        have hmem : e2.1 = k ∨ e2 ∈ rest := by
          clear ih hs
          induction rest with
          | nil =>
            have : e2 = (k, v) := by simpa [setAttrList] using he2
            exact Or.inl (by rw [this])
          | cons e3 rest3 ih3 =>
            obtain ⟨k3, v3⟩ := e3
            by_cases h3 : k3 = k
            · simp only [setAttrList, if_pos h3] at he2
              rcases List.mem_cons.mp he2 with he2 | he2
              · exact Or.inl (by rw [he2])
              · exact Or.inr (List.mem_cons_of_mem _ he2)
            · by_cases h4 : keyLt k k3 = true
              · simp only [setAttrList, if_neg h3, if_pos h4] at he2
                rcases List.mem_cons.mp he2 with he2 | he2
                · exact Or.inl (by rw [he2])
                · exact Or.inr he2
              · simp only [setAttrList, if_neg h3,
                  if_neg (by simp [h4] : ¬ keyLt k k3 = true)] at he2
                rcases List.mem_cons.mp he2 with he2 | he2
                · exact Or.inr (List.mem_cons.mpr (Or.inl he2))
                · rcases ih3 he2 with hx | hx
                  · exact Or.inl hx
                  · exact Or.inr (List.mem_cons_of_mem _ hx)
        rcases hmem with hx | hx
        · rw [hx]
          cases hor : keyLt (k0, v0).1 k
          · exfalso
            exact h (keyLt_trichotomy k0 k hor (by simpa using h2))
          · rfl
        · exact hs.1 e2 hx

/-! ### Children-list block lemmas -/

theorem insertBeforeAux_block (xs ys : List Nat) (a r : Nat) (h : r ∉ xs) :
    insertBeforeAux (xs ++ r :: ys) a r = xs ++ a :: r :: ys := by
  induction xs with
  | nil => simp [insertBeforeAux]
  | cons x rest ih =>
    have hx : ¬ x = r := fun hc => h (hc ▸ List.mem_cons_self x rest)
    simp only [List.cons_append, insertBeforeAux, if_neg hx]
    exact congrArg _ (ih (fun hc => h (List.mem_cons_of_mem _ hc)))

theorem insertBeforeList_block (pre sfx : List Nat) (a : Nat) (ref : Option Nat)
    (href : match ref with
            | some r => sfx.head? = some r ∧ r ∉ pre
            | none => sfx = []) :
    insertBeforeList (pre ++ sfx) a ref = pre ++ a :: sfx := by
  cases ref with
  | none =>
    have hs : sfx = [] := href
    subst hs
    simp [insertBeforeList]
  | some r =>
    obtain ⟨hhead, hpre⟩ := href
    cases sfx with
    | nil => simp at hhead
    | cons s rest =>
      have : s = r := by simpa using hhead
      subst this
      exact insertBeforeAux_block _ _ _ _ hpre

theorem foldl_erase_filter (toRemove cs : List Nat) (hnd : cs.Nodup) :
    toRemove.foldl (fun l a => l.erase a) cs = cs.filter (fun c => !(toRemove.contains c)) := by
  induction toRemove generalizing cs with
  | nil => simp
  | cons a rest ih =>
    rw [List.foldl_cons, ih _ (List.Nodup.erase a hnd), List.Nodup.erase_eq_filter hnd,
      List.filter_filter]
    apply List.filter_congr
    intro c _
    by_cases hc : c = a
    · simp [hc]
    · by_cases hr : c ∈ rest
      · simp [hc, hr]
      · simp [hc, hr]

theorem filter_not_mem_block (pre mid sfx : List Nat) (hnd : (pre ++ mid ++ sfx).Nodup) :
    (pre ++ mid ++ sfx).filter (fun c => !(mid.contains c)) = pre ++ sfx := by
  rw [List.filter_append, List.filter_append]
  rw [List.append_assoc] at hnd
  rw [List.nodup_append] at hnd
  obtain ⟨hp, hms, hdisj⟩ := hnd
  rw [List.nodup_append] at hms
  obtain ⟨hm, hs, hdisj2⟩ := hms
  rw [List.filter_eq_self.mpr (fun c hc => by
      have : c ∉ mid := fun hcon =>
        (List.disjoint_left.mp hdisj) hc (List.mem_append.mpr (Or.inl hcon))
      simp [this])]
  rw [List.filter_eq_nil_iff.mpr (fun c hc => by simp [hc]),
    List.filter_eq_self.mpr (fun c hc => by
      have : c ∉ mid := fun hcon => (List.disjoint_left.mp hdisj2) hcon hc
      simp [this])]
  simp

theorem updateNode_absent (d : Doc) (n : Nat) (f : NData → NData) (h : d.lookup n = none) :
    d.updateNode n f = d := by
  unfold Doc.updateNode
  rw [Doc.mk.injEq]
  refine ⟨?_, rfl⟩
  apply map_update_id_of_not_key
  intro hmem
  obtain ⟨e, he, hkey⟩ := List.mem_map.mp hmem
  unfold Doc.lookup at h
  rcases hf : d.nodes.find? (fun x => x.1 == n) with _ | x
  · have := List.find?_eq_none.mp hf e he
    simp [hkey] at this
  · rw [hf] at h
    exact Option.noConfusion h

theorem foldl_removeChild_eq (d : Doc) (t : Nat) (toRemove : List Nat) :
    toRemove.foldl (fun acc n => acc.removeChild t n) d =
      d.updateNode t
        (fun nd => { nd with children := toRemove.foldl (fun l a => l.erase a) nd.children }) := by
  induction toRemove generalizing d with
  | nil => exact (updateNode_id d t).symm
  | cons a rest ih =>
    rw [List.foldl_cons, ih]
    unfold Doc.removeChild
    rw [updateNode_updateNode]
    rfl


def RefOk (ref : Option Nat) (pre sfx : List Nat) : Prop :=
  (∀ r, ref = some r → sfx.head? = some r ∧ r ∉ pre) ∧ (ref = none → sfx = [])

theorem insertBeforeList_block_refOk (pre sfx : List Nat) (a : Nat) (ref : Option Nat)
    (href : RefOk ref pre sfx) :
    insertBeforeList (pre ++ sfx) a ref = pre ++ a :: sfx := by
  apply insertBeforeList_block
  cases ref with
  | none => exact href.2 rfl
  | some r => exact href.1 r rfl

theorem refOk_extend (ref : Option Nat) (pre sfx : List Nat) (a : Nat) (d : Doc)
    (nd0 : NData) (hex : d.lookup t = some nd0) (hch : nd0.children = pre ++ sfx)
    (hdeta : Detached d a) (href : RefOk ref pre sfx) :
    RefOk ref (pre ++ [a]) sfx := by
  constructor
  · intro r hr
    obtain ⟨hh, hp⟩ := href.1 r hr
    refine ⟨hh, ?_⟩
    intro hc
    rcases List.mem_append.mp hc with hc | hc
    · exact hp hc
    · have hra : r = a := by simpa using hc
      have hrmem : r ∈ nd0.children := by
        rw [hch]
        cases sfx with
        | nil => simp at hh
        | cons s rest2 =>
          have hsr : s = r := by simpa using hh
          exact List.mem_append.mpr (Or.inr (hsr ▸ List.mem_cons_self _ _))
      exact hdeta (t, nd0) (lookup_mem d t nd0 hex) (hra ▸ hrmem)
  · exact href.2

theorem foldl_insertBefore_block (added : List Nat) (d : Doc) (t : Nat) (ref : Option Nat)
    (pre sfx : List Nat) (nd0 : NData)
    (hk : (d.nodes.map Prod.fst).Nodup)
    (hex : d.lookup t = some nd0)
    (hch : nd0.children = pre ++ sfx)
    (href : RefOk ref pre sfx)
    (hdet : ∀ a ∈ added, Detached d a)
    (hnd : added.Nodup) :
    added.foldl (fun acc a => acc.insertBefore t a ref) d =
      d.updateNode t (fun nd => { nd with children := pre ++ added ++ sfx }) := by
  induction added generalizing d pre nd0 with
  | nil =>
    rw [List.foldl_nil]
    symm
    apply updateNode_eq_self d t _ hk
    intro nd hnd2
    rw [hex] at hnd2
    cases hnd2
    rw [List.append_nil, ← hch]
  | cons a rest ih =>
    have hdeta : Detached d a := hdet a (List.mem_cons_self _ _)
    have h1 : d.insertBefore t a ref =
        d.updateNode t (fun nd => { nd with children := pre ++ a :: sfx }) := by
      rw [insertBefore_detached _ _ _ _ hdeta]
      apply updateNode_congr _ _ _ _ hk
      intro nd hnd2
      rw [hex] at hnd2
      cases hnd2
      rw [NData.mk.injEq]
      refine ⟨rfl, rfl, rfl, ?_⟩
      rw [hch, insertBeforeList_block_refOk pre sfx a ref href]
    rw [List.foldl_cons, h1]
    have hk1 : (((d.updateNode t (fun nd => { nd with children := pre ++ a :: sfx })).nodes).map
        Prod.fst).Nodup := by
      rw [updateNode_keys]
      exact hk
    have hex1 : (d.updateNode t (fun nd => { nd with children := pre ++ a :: sfx })).lookup t =
        some { nd0 with children := pre ++ a :: sfx } := by
      rw [lookup_updateNode_self, hex]
      rfl
    have hch1 : ({ nd0 with children := pre ++ a :: sfx } : NData).children =
        (pre ++ [a]) ++ sfx := by
      simp
    have href1 : RefOk ref (pre ++ [a]) sfx :=
      refOk_extend ref pre sfx a d nd0 hex hch hdeta href
    have hdet1 : ∀ x ∈ rest,
        Detached (d.updateNode t (fun nd => { nd with children := pre ++ a :: sfx })) x := by
      intro x hx e he
      obtain ⟨e0, he0, hee⟩ := mem_updateNode_elim d t _ e he
      have hx0 : x ∉ e0.2.children := hdet x (List.mem_cons_of_mem _ hx) e0 he0
      by_cases hkey : e0.1 = t
      · rw [hee, if_pos hkey]
        simp only
        intro hcon
        have hxa : x ≠ a := by
          intro hxa
          rw [List.nodup_cons] at hnd
          exact hnd.1 (hxa ▸ hx)
        have hxnd0 : x ∉ nd0.children :=
          hdet x (List.mem_cons_of_mem _ hx) (t, nd0) (lookup_mem d t nd0 hex)
        rw [hch] at hxnd0
        rcases List.mem_append.mp hcon with hc | hc
        · exact hxnd0 (List.mem_append.mpr (Or.inl hc))
        · rcases List.mem_cons.mp hc with hc | hc
          · exact hxa hc
          · exact hxnd0 (List.mem_append.mpr (Or.inr hc))
      · rw [hee, if_neg hkey]
        exact hx0
    rw [ih _ (pre ++ [a]) _ hk1 hex1 hch1 href1 hdet1 (List.nodup_cons.mp hnd).2,
      updateNode_updateNode]
    apply updateNode_congr _ _ _ _ hk
    intro nd _
    rw [NData.mk.injEq]
    refine ⟨rfl, rfl, rfl, ?_⟩
    simp

theorem tmod_shift (x n : Int) (h0 : 0 ≤ x) (h1 : x < n) : (x + n).tmod n = x := by
  rw [Int.tmod_eq_emod (by omega) (by omega), Int.add_emod_self]
  exact Int.emod_eq_of_lt h0 h1

theorem erase_block (pre sfx : List Nat) (x : Nat) (h : x ∉ pre) :
    (pre ++ x :: sfx).erase x = pre ++ sfx := by
  rw [List.erase_append_right _ h, List.erase_cons_head]

theorem contains_reverse (l : List Nat) (c : Nat) : l.reverse.contains c = l.contains c := by
  by_cases h : c ∈ l
  · simp [h]
  · simp [h]

theorem mem_nodes_eq (d : Doc) (t : Nat) (nd nd2 : NData)
    (hk : (d.nodes.map Prod.fst).Nodup)
    (hex : d.lookup t = some nd) (hmem : (t, nd2) ∈ d.nodes) : nd2 = nd := by
  have h2 := mem_lookup d t nd2 hk hmem
  rw [hex] at h2
  exact (Option.some.injEq _ _ ▸ h2).symm

theorem detached_updateNode (d : Doc) (t : Nat) (f : NData → NData) (x : Nat)
    (h : Detached d x) (hf : ∀ nd, x ∉ nd.children → x ∉ (f nd).children) :
    Detached (d.updateNode t f) x := by
  intro e he
  obtain ⟨e0, he0, hee⟩ := mem_updateNode_elim d t f e he
  by_cases hkey : e0.1 = t
  · rw [hee, if_pos hkey]
    exact hf e0.2 (h e0 he0)
  · rw [hee, if_neg hkey]
    exact h e0 he0

theorem nodup_mid_replace (pre mid sfx mid' : List Nat)
    (h : (pre ++ mid ++ sfx).Nodup) (h2 : mid'.Nodup)
    (h3 : ∀ a ∈ mid', a ∉ pre ++ mid ++ sfx) : (pre ++ mid' ++ sfx).Nodup := by
  rw [List.append_assoc, List.nodup_append] at h ⊢
  obtain ⟨hp, hms, hdisj⟩ := h
  rw [List.nodup_append] at hms ⊢
  obtain ⟨hm, hs, hdisj2⟩ := hms
  refine ⟨hp, ⟨h2, hs, ?_⟩, ?_⟩
  · intro a ha
    have := h3 a ha
    rw [List.append_assoc, List.mem_append, List.mem_append] at this
    intro hc
    exact this (Or.inr (Or.inr hc))
  · intro a ha
    rw [List.mem_append]
    rintro (hc | hc)
    · have := h3 a hc
      rw [List.append_assoc, List.mem_append] at this
      exact this (Or.inl ha)
    · exact hdisj ha (List.mem_append.mpr (Or.inr hc))

/-- One DOM mutation together with the record the `MutationObserver`
delivers for it: `StepRec d r d'` says the mutation described by `r`
turns tree `d` into tree `d'`, with `r.oldValue` holding the observed
pre-mutation value and, for `childList`, the sibling anchors read from
the live tree. -/
inductive StepRec : Doc → UndoBufferRecord → Doc → Prop where
  | charData (d : Doc) (r : UndoBufferRecord) (nd : NData) (v : Option String)
      (ht : r.type = RType.characterData)
      (hex : d.lookup r.target = some nd)
      (hold : r.oldValue = nd.value) :
      StepRec d r (d.setNodeValue r.target v)
  | attrSet (d : Doc) (r : UndoBufferRecord) (nd : NData) (v : String)
      (ht : r.type = RType.attributes)
      (hex : d.lookup r.target = some nd)
      (hold : r.oldValue = getAttrList nd.attrs (UndoBuffer.akey r)) :
      StepRec d r (d.setAttribute r.target (UndoBuffer.akey r) v)
  | attrRemove (d : Doc) (r : UndoBufferRecord) (nd : NData)
      (ht : r.type = RType.attributes)
      (hex : d.lookup r.target = some nd)
      (hold : r.oldValue = getAttrList nd.attrs (UndoBuffer.akey r)) :
      StepRec d r (d.removeAttribute r.target (UndoBuffer.akey r))
  | childList (d : Doc) (r : UndoBufferRecord) (nd : NData) (pre sfx : List Nat)
      (ht : r.type = RType.childList)
      (hex : d.lookup r.target = some nd)
      (hch : nd.children = pre ++ r.removedNodes ++ sfx)
      (href : RefOk r.nextSibling pre sfx)
      (hadd : ∀ a ∈ r.addedNodes, Detached d a)
      (haddnd : r.addedNodes.Nodup)
      (hdisj : ∀ x ∈ r.removedNodes, x ∉ r.addedNodes) :
      StepRec d r
        (d.updateNode r.target (fun x => { x with children := pre ++ r.addedNodes ++ sfx }))

theorem wf_updateNode_same_shape (d : Doc) (t : Nat) (f : NData → NData) (hwf : Wf d)
    (hc : ∀ x, (f x).children = x.children)
    (ha : ∀ x, x.attrs.Pairwise (fun a b => keyLt a.1 b.1 = true) →
      (f x).attrs.Pairwise (fun a b => keyLt a.1 b.1 = true)) :
    Wf (d.updateNode t f) := by
  refine ⟨?_, ?_, ?_, ?_⟩
  · rw [updateNode_keys]
    exact hwf.keys
  · intro e he
    obtain ⟨e0, he0, hee⟩ := mem_updateNode_elim d t f e he
    by_cases hkey : e0.1 = t
    · rw [hee, if_pos hkey]
      simp only [hc]
      exact hwf.childNodup e0 he0
    · rw [hee, if_neg hkey]
      exact hwf.childNodup e0 he0
  · intro k1 k2 d1 d2 c h1 h2 hc1 hc2
    obtain ⟨e1, he1, hee1⟩ := mem_updateNode_elim d t f _ h1
    obtain ⟨e2, he2, hee2⟩ := mem_updateNode_elim d t f _ h2
    have hk1 : k1 = e1.1 := by
      by_cases hkey : e1.1 = t
      · rw [if_pos hkey] at hee1
        exact congrArg Prod.fst hee1
      · rw [if_neg hkey] at hee1
        exact congrArg Prod.fst hee1
    have hc1' : c ∈ e1.2.children := by
      by_cases hkey : e1.1 = t
      · rw [if_pos hkey] at hee1
        have : d1 = f e1.2 := congrArg Prod.snd hee1
        rw [this, hc] at hc1
        exact hc1
      · rw [if_neg hkey] at hee1
        have : d1 = e1.2 := congrArg Prod.snd hee1
        rw [this] at hc1
        exact hc1
    have hk2 : k2 = e2.1 := by
      by_cases hkey : e2.1 = t
      · rw [if_pos hkey] at hee2
        exact congrArg Prod.fst hee2
      · rw [if_neg hkey] at hee2
        exact congrArg Prod.fst hee2
    have hc2' : c ∈ e2.2.children := by
      by_cases hkey : e2.1 = t
      · rw [if_pos hkey] at hee2
        have : d2 = f e2.2 := congrArg Prod.snd hee2
        rw [this, hc] at hc2
        exact hc2
      · rw [if_neg hkey] at hee2
        have : d2 = e2.2 := congrArg Prod.snd hee2
        rw [this] at hc2
        exact hc2
    rw [hk1, hk2]
    exact hwf.childUnique e1.1 e2.1 e1.2 e2.2 c (by simpa using he1) (by simpa using he2) hc1' hc2'
  · intro e he
    obtain ⟨e0, he0, hee⟩ := mem_updateNode_elim d t f e he
    by_cases hkey : e0.1 = t
    · rw [hee, if_pos hkey]
      exact ha e0.2 (hwf.attrsSorted e0 he0)
    · rw [hee, if_neg hkey]
      exact hwf.attrsSorted e0 he0

theorem wf_updateNode_children (d : Doc) (t : Nat) (nd : NData) (cs' : List Nat) (hwf : Wf d)
    (hex : d.lookup t = some nd)
    (hnd' : cs'.Nodup)
    (hsub : ∀ c ∈ cs', c ∈ nd.children ∨ Detached d c) :
    Wf (d.updateNode t (fun x => { x with children := cs' })) := by
  have hmemt : (t, nd) ∈ d.nodes := lookup_mem d t nd hex
  refine ⟨?_, ?_, ?_, ?_⟩
  · rw [updateNode_keys]
    exact hwf.keys
  · intro e he
    obtain ⟨e0, he0, hee⟩ := mem_updateNode_elim d t _ e he
    by_cases hkey : e0.1 = t
    · rw [hee, if_pos hkey]
      exact hnd'
    · rw [hee, if_neg hkey]
      exact hwf.childNodup e0 he0
  · intro k1 k2 d1 d2 c h1 h2 hc1 hc2
    obtain ⟨e1, he1, hee1⟩ := mem_updateNode_elim d t _ _ h1
    obtain ⟨e2, he2, hee2⟩ := mem_updateNode_elim d t _ _ h2
    by_cases hkey1 : e1.1 = t
    · rw [if_pos hkey1] at hee1
      have hk1 : k1 = t := (congrArg Prod.fst hee1).trans hkey1
      have hd1 : d1 = { e1.2 with children := cs' } := congrArg Prod.snd hee1
      have hcs : c ∈ cs' := by
        rw [hd1] at hc1
        exact hc1
      by_cases hkey2 : e2.1 = t
      · rw [if_pos hkey2] at hee2
        have hk2 : k2 = t := (congrArg Prod.fst hee2).trans hkey2
        rw [hk1, hk2]
      · rw [if_neg hkey2] at hee2
        have hk2 : k2 = e2.1 := congrArg Prod.fst hee2
        have hd2 : d2 = e2.2 := congrArg Prod.snd hee2
        rcases hsub c hcs with hin | hdet
        · have := hwf.childUnique t e2.1 nd e2.2 c hmemt he2 hin (hd2 ▸ hc2)
          rw [hk1, hk2, ← this]
        · exact absurd (hd2 ▸ hc2) (hdet e2 he2)
    · rw [if_neg hkey1] at hee1
      have hk1 : k1 = e1.1 := congrArg Prod.fst hee1
      have hd1 : d1 = e1.2 := congrArg Prod.snd hee1
      by_cases hkey2 : e2.1 = t
      · rw [if_pos hkey2] at hee2
        have hk2 : k2 = t := (congrArg Prod.fst hee2).trans hkey2
        have hd2 : d2 = { e2.2 with children := cs' } := congrArg Prod.snd hee2
        have hcs : c ∈ cs' := by
          rw [hd2] at hc2
          exact hc2
        rcases hsub c hcs with hin | hdet
        · have := hwf.childUnique e1.1 t e1.2 nd c he1 hmemt (hd1 ▸ hc1) hin
          rw [hk1, hk2, this]
        · exact absurd (hd1 ▸ hc1) (hdet e1 he1)
      · rw [if_neg hkey2] at hee2
        have hk2 : k2 = e2.1 := congrArg Prod.fst hee2
        have hd2 : d2 = e2.2 := congrArg Prod.snd hee2
        rw [hk1, hk2]
        exact hwf.childUnique e1.1 e2.1 e1.2 e2.2 c he1 he2 (hd1 ▸ hc1) (hd2 ▸ hc2)
  · intro e he
    obtain ⟨e0, he0, hee⟩ := mem_updateNode_elim d t _ e he
    by_cases hkey : e0.1 = t
    · rw [hee, if_pos hkey]
      exact hwf.attrsSorted e0 he0
    · rw [hee, if_neg hkey]
      exact hwf.attrsSorted e0 he0

theorem stepRec_wf (d d' : Doc) (r : UndoBufferRecord) (hwf : Wf d) (hs : StepRec d r d') :
    Wf d' := by
  cases hs with
  | charData nd v ht hex hold =>
    exact wf_updateNode_same_shape d r.target _ hwf (fun x => rfl) (fun x h => h)
  | attrSet nd v ht hex hold =>
    exact wf_updateNode_same_shape d r.target _ hwf (fun x => rfl)
      (fun x h => pairwise_setAttrList x.attrs _ _ h)
  | attrRemove nd ht hex hold =>
    exact wf_updateNode_same_shape d r.target _ hwf (fun x => rfl)
      (fun x h => List.Pairwise.sublist (List.filter_sublist _) h)
  | childList nd pre sfx ht hex hch href hadd haddnd hdisj =>
    apply wf_updateNode_children d r.target nd _ hwf hex
    · apply nodup_mid_replace pre r.removedNodes sfx r.addedNodes
        (hch ▸ hwf.childNodup (r.target, nd) (lookup_mem d r.target nd hex)) haddnd
      intro a ha
      rw [← hch]
      exact hadd a ha (r.target, nd) (lookup_mem d r.target nd hex)
    · intro c hcs
      rw [List.append_assoc, List.mem_append] at hcs
      rcases hcs with hc | hc
      · left
        rw [hch, List.append_assoc, List.mem_append]
        exact Or.inl hc
      · rw [List.mem_append] at hc
        rcases hc with hc | hc
        · right
          exact hadd c hc
        · left
          rw [hch, List.append_assoc, List.mem_append, List.mem_append]
          exact Or.inr (Or.inr hc)

theorem stepRec_inverse (d d' : Doc) (r : UndoBufferRecord)
    (hwf : Wf d) (hs : StepRec d r d') (hrem : r.removedNodes.length ≤ 1) :
    (UndoBuffer.undoRec d' r).2 = d ∧
    UndoBuffer.redoRec d (UndoBuffer.undoRec d' r).1 = d' := by
  have hkeys := hwf.keys
  cases hs with
  | charData nd v ht hex hold =>
    have hv : (d.setNodeValue r.target v).nodeValue r.target = v := by
      unfold Doc.nodeValue Doc.setNodeValue
      rw [lookup_updateNode_self, hex]
      rfl
    have hback : (d.setNodeValue r.target v).setNodeValue r.target r.oldValue = d := by
      unfold Doc.setNodeValue
      rw [updateNode_updateNode]
      apply updateNode_eq_self _ _ _ hkeys
      intro nd0 hnd0
      rw [hex, Option.some.injEq] at hnd0
      subst hnd0
      rw [hold]
    have hu : UndoBuffer.undoRec (d.setNodeValue r.target v) r =
        ({ r with newValue := v }, d) := by
      simp only [UndoBuffer.undoRec, ht]
      rw [hv, hback]
    rw [hu]
    refine ⟨rfl, ?_⟩
    simp only [UndoBuffer.redoRec, ht]
  | attrSet nd v ht hex hold =>
    have hsorted : nd.attrs.Pairwise (fun a b => keyLt a.1 b.1 = true) :=
      hwf.attrsSorted (r.target, nd) (lookup_mem _ _ _ hex)
    have hv : (d.setAttribute r.target (UndoBuffer.akey r) v).getAttribute r.target
        (UndoBuffer.akey r) = some v := by
      unfold Doc.getAttribute Doc.setAttribute
      rw [lookup_updateNode_self, hex]
      exact getAttrList_setAttrList_self _ _ _
    have hu : UndoBuffer.undoRec (d.setAttribute r.target (UndoBuffer.akey r) v) r =
        ({ r with newValue := some v }, d) := by
      simp only [UndoBuffer.undoRec, ht]
      rw [hv]
      rcases hv0 : getAttrList nd.attrs (UndoBuffer.akey r) with _ | v0
      · rw [hold, hv0]
        simp only
        rw [Prod.mk.injEq]
        refine ⟨rfl, ?_⟩
        unfold Doc.removeAttribute Doc.setAttribute
        rw [updateNode_updateNode]
        apply updateNode_eq_self _ _ _ hkeys
        intro nd0 hnd0
        rw [hex, Option.some.injEq] at hnd0
        subst hnd0
        rw [NData.mk.injEq]
        refine ⟨rfl, rfl, ?_, rfl⟩
        show removeAttrList (setAttrList nd.attrs (UndoBuffer.akey r) v) (UndoBuffer.akey r) =
          nd.attrs
        rw [removeAttrList_setAttrList, removeAttrList_eq_self _ _ hv0]
      · rw [hold, hv0]
        simp only
        rw [Prod.mk.injEq]
        refine ⟨rfl, ?_⟩
        unfold Doc.setAttribute
        rw [updateNode_updateNode]
        apply updateNode_eq_self _ _ _ hkeys
        intro nd0 hnd0
        rw [hex, Option.some.injEq] at hnd0
        subst hnd0
        rw [NData.mk.injEq]
        refine ⟨rfl, rfl, ?_, rfl⟩
        show setAttrList (setAttrList nd.attrs (UndoBuffer.akey r) v) (UndoBuffer.akey r) v0 =
          nd.attrs
        rw [setAttrList_setAttrList, setAttrList_eq_self _ _ _ hsorted hv0]
    rw [hu]
    refine ⟨rfl, ?_⟩
    simp only [UndoBuffer.redoRec, ht]
    rfl
  | attrRemove nd ht hex hold =>
    have hsorted : nd.attrs.Pairwise (fun a b => keyLt a.1 b.1 = true) :=
      hwf.attrsSorted (r.target, nd) (lookup_mem _ _ _ hex)
    have hv : (d.removeAttribute r.target (UndoBuffer.akey r)).getAttribute r.target
        (UndoBuffer.akey r) = none := by
      unfold Doc.getAttribute Doc.removeAttribute
      rw [lookup_updateNode_self, hex]
      exact getAttrList_removeAttrList_self _ _
    have hu : UndoBuffer.undoRec (d.removeAttribute r.target (UndoBuffer.akey r)) r =
        ({ r with newValue := none }, d) := by
      simp only [UndoBuffer.undoRec, ht]
      rw [hv]
      rcases hv0 : getAttrList nd.attrs (UndoBuffer.akey r) with _ | v0
      · rw [hold, hv0]
        simp only
        rw [Prod.mk.injEq]
        refine ⟨rfl, ?_⟩
        unfold Doc.removeAttribute
        rw [updateNode_updateNode]
        apply updateNode_eq_self _ _ _ hkeys
        intro nd0 hnd0
        rw [hex, Option.some.injEq] at hnd0
        subst hnd0
        rw [NData.mk.injEq]
        refine ⟨rfl, rfl, ?_, rfl⟩
        show removeAttrList (removeAttrList nd.attrs (UndoBuffer.akey r)) (UndoBuffer.akey r) =
          nd.attrs
        rw [removeAttrList_eq_self _ _ hv0, removeAttrList_eq_self _ _ hv0]
      · rw [hold, hv0]
        simp only
        rw [Prod.mk.injEq]
        refine ⟨rfl, ?_⟩
        unfold Doc.setAttribute Doc.removeAttribute
        rw [updateNode_updateNode]
        apply updateNode_eq_self _ _ _ hkeys
        intro nd0 hnd0
        rw [hex, Option.some.injEq] at hnd0
        subst hnd0
        rw [NData.mk.injEq]
        refine ⟨rfl, rfl, ?_, rfl⟩
        show setAttrList (removeAttrList nd.attrs (UndoBuffer.akey r)) (UndoBuffer.akey r) v0 =
          nd.attrs
        rw [setAttrList_removeAttrList _ _ _ hsorted hv0]
    rw [hu]
    refine ⟨rfl, ?_⟩
    simp only [UndoBuffer.redoRec, ht]
    rfl
  | childList nd pre sfx ht hex hch href hadd haddnd hdisj =>
    have hmemt : (r.target, nd) ∈ d.nodes := lookup_mem _ _ _ hex
    have hndchild : nd.children.Nodup := hwf.childNodup _ hmemt
    have hnodup3 : (pre ++ r.removedNodes ++ sfx).Nodup := hch ▸ hndchild
    have haddall : ∀ a ∈ r.addedNodes, a ∉ pre ++ r.removedNodes ++ sfx := by
      intro a ha
      rw [← hch]
      exact hadd a ha _ hmemt
    have hnodup' : (pre ++ r.addedNodes ++ sfx).Nodup :=
      nodup_mid_replace _ _ _ _ hnodup3 haddnd haddall
    have hd1 : r.addedNodes.reverse.foldl (fun acc n => acc.removeChild r.target n)
        (d.updateNode r.target (fun x => { x with children := pre ++ r.addedNodes ++ sfx })) =
        d.updateNode r.target (fun x => { x with children := pre ++ sfx }) := by
      rw [foldl_removeChild_eq, updateNode_updateNode]
      apply updateNode_congr _ _ _ _ hkeys
      intro nd0 _
      rw [NData.mk.injEq]
      refine ⟨rfl, rfl, rfl, ?_⟩
      show r.addedNodes.reverse.foldl (fun l a => l.erase a) (pre ++ r.addedNodes ++ sfx) =
        pre ++ sfx
      rw [foldl_erase_filter _ _ hnodup']
      have hfc : (pre ++ r.addedNodes ++ sfx).filter
          (fun c => !(r.addedNodes.reverse.contains c)) =
          (pre ++ r.addedNodes ++ sfx).filter (fun c => !(r.addedNodes.contains c)) := by
        apply List.filter_congr
        intro c _
        rw [contains_reverse]
      rw [hfc, filter_not_mem_block _ _ _ hnodup']
    rcases hR : r.removedNodes with _ | ⟨x, tail⟩
    · have hch' : nd.children = pre ++ sfx := by
        rw [hch, hR, List.append_nil]
      have hu : UndoBuffer.undoRec
          (d.updateNode r.target (fun x => { x with children := pre ++ r.addedNodes ++ sfx })) r =
          (r, d) := by
        simp only [UndoBuffer.undoRec, ht, hR, List.reverse_nil, List.foldl_nil]
        rw [hd1, Prod.mk.injEq]
        refine ⟨rfl, ?_⟩
        apply updateNode_eq_self _ _ _ hkeys
        intro nd0 hnd0
        rw [hex, Option.some.injEq] at hnd0
        subst hnd0
        rw [← hch']
      rw [hu]
      refine ⟨rfl, ?_⟩
      simp only [UndoBuffer.redoRec, ht, hR, List.foldl_nil]
      exact foldl_insertBefore_block r.addedNodes d r.target r.nextSibling pre sfx nd
        hkeys hex hch' href hadd haddnd
    · have htail : tail = [] := by
        rw [hR] at hrem
        simp only [List.length_cons] at hrem
        have : tail.length = 0 := by omega
        exact List.length_eq_zero.mp this
      subst htail
      have hch' : nd.children = pre ++ [x] ++ sfx := by rw [hch, hR]
      have hxpre : x ∉ pre := by
        rw [hR] at hnodup3
        rw [List.append_assoc, List.nodup_append] at hnodup3
        intro hc
        exact hnodup3.2.2 hc (List.mem_append.mpr (Or.inl (List.mem_singleton.mpr rfl)))
      have hxsfx : x ∉ sfx := by
        rw [hR] at hnodup3
        rw [List.append_assoc, List.nodup_append] at hnodup3
        have h2 := hnodup3.2.1
        rw [List.nodup_append] at h2
        intro hc
        exact h2.2.2 (List.mem_singleton.mpr rfl) hc
      have hxmem : x ∈ nd.children := by
        rw [hch']
        exact List.mem_append.mpr (Or.inl (List.mem_append.mpr (Or.inr (by simp))))
      have hdetx : Detached (d.updateNode r.target
          (fun y => { y with children := pre ++ sfx })) x := by
        intro e he
        obtain ⟨e0, he0, hee⟩ := mem_updateNode_elim d r.target _ e he
        by_cases hkey : e0.1 = r.target
        · rw [hee, if_pos hkey]
          simp only
          intro hc
          rcases List.mem_append.mp hc with hc | hc
          · exact hxpre hc
          · exact hxsfx hc
        · rw [hee, if_neg hkey]
          intro hc
          exact hkey (hwf.childUnique e0.1 r.target e0.2 nd x (by simpa using he0) hmemt hc hxmem)
      have hu : UndoBuffer.undoRec
          (d.updateNode r.target (fun y => { y with children := pre ++ r.addedNodes ++ sfx })) r =
          (r, d) := by
        simp only [UndoBuffer.undoRec, ht, hR]
        rw [hd1, Prod.mk.injEq]
        refine ⟨rfl, ?_⟩
        show ((d.updateNode r.target (fun y => { y with children := pre ++ sfx })).insertBefore
          r.target x r.nextSibling) = d
        rw [insertBefore_detached _ _ _ _ hdetx, updateNode_updateNode]
        apply updateNode_eq_self _ _ _ hkeys
        intro nd0 hnd0
        rw [hex, Option.some.injEq] at hnd0
        subst hnd0
        rw [NData.mk.injEq]
        refine ⟨rfl, rfl, rfl, ?_⟩
        show insertBeforeList (pre ++ sfx) x r.nextSibling = nd.children
        rw [insertBeforeList_block_refOk pre sfx x r.nextSibling href, hch', List.append_assoc,
          List.singleton_append]
      rw [hu]
      refine ⟨rfl, ?_⟩
      simp only [UndoBuffer.redoRec, ht, hR]
      have href2 : RefOk r.nextSibling (pre ++ [x]) sfx := by
        constructor
        · intro s hs
          obtain ⟨hh, hp⟩ := href.1 s hs
          refine ⟨hh, ?_⟩
          intro hc
          rcases List.mem_append.mp hc with hc | hc
          · exact hp hc
          · have hsx : s = x := by simpa using hc
            have hsmem : s ∈ sfx := by
              cases sfx with
              | nil => exact Option.noConfusion hh
              | cons s0 rest =>
                have : s0 = s := by simpa using hh
                exact this ▸ List.mem_cons_self _ _
            exact hxsfx (hsx ▸ hsmem)
        · exact href.2
      have hch2 : nd.children = (pre ++ [x]) ++ sfx := hch'
      rw [foldl_insertBefore_block r.addedNodes d r.target r.nextSibling (pre ++ [x]) sfx nd
        hkeys hex hch2 href2 hadd haddnd]
      show ((d.updateNode r.target
        (fun y => { y with children := (pre ++ [x]) ++ r.addedNodes ++ sfx })).removeChild
        r.target x) = _
      unfold Doc.removeChild
      rw [updateNode_updateNode]
      apply updateNode_congr _ _ _ _ hkeys
      intro nd0 _
      rw [NData.mk.injEq]
      refine ⟨rfl, rfl, rfl, ?_⟩
      show ((pre ++ [x]) ++ r.addedNodes ++ sfx).erase x = pre ++ r.addedNodes ++ sfx
      have hshape : (pre ++ [x]) ++ r.addedNodes ++ sfx = pre ++ x :: (r.addedNodes ++ sfx) := by
        simp
      rw [hshape, erase_block pre (r.addedNodes ++ sfx) x hxpre, ← List.append_assoc]

/-- A batch of mutation records produced by one observer callback:
each record's mutation applied in order turns `d` into `d'`. -/
inductive StepBatch : Doc → List UndoBufferRecord → Doc → Prop where
  | nil (d : Doc) : StepBatch d [] d
  | cons (d dm d' : Doc) (r : UndoBufferRecord) (rs : List UndoBufferRecord)
      (h1 : StepRec d r dm) (h2 : StepBatch dm rs d') : StepBatch d (r :: rs) d'

theorem stepBatch_wf (rs : List UndoBufferRecord) :
    ∀ d d', Wf d → StepBatch d rs d' → Wf d' := by
  induction rs with
  | nil =>
    intro d d' hwf hs
    cases hs
    exact hwf
  | cons r rest ih =>
    intro d d' hwf hs
    rcases hs with _ | ⟨_, dm, _, _, _, h1, h2⟩
    exact ih dm d' (stepRec_wf d dm r hwf h1) h2

theorem stepBatch_inverse (rs : List UndoBufferRecord) :
    ∀ d d', Wf d → StepBatch d rs d' → (∀ r ∈ rs, r.removedNodes.length ≤ 1) →
      (UndoBuffer.undoRecords d' rs).2 = d ∧
      UndoBuffer.redoRecords d (UndoBuffer.undoRecords d' rs).1 = d' := by
  induction rs with
  | nil =>
    intro d d' hwf hs hrem
    cases hs
    exact ⟨rfl, rfl⟩
  | cons r rest ih =>
    intro d d' hwf hs hrem
    rcases hs with _ | ⟨_, dm, _, _, _, h1, h2⟩
    have hwm : Wf dm := stepRec_wf d dm r hwf h1
    obtain ⟨hu, hr⟩ := ih dm d' hwm h2 (fun q hq => hrem q (List.mem_cons_of_mem _ hq))
    obtain ⟨hu1, hr1⟩ := stepRec_inverse d dm r hwf h1 (hrem r (List.mem_cons_self _ _))
    constructor
    · show (UndoBuffer.undoRec (UndoBuffer.undoRecords d' rest).2 r).2 = d
      rw [hu]
      exact hu1
    · show UndoBuffer.redoRecords
        (UndoBuffer.redoRec d (UndoBuffer.undoRec (UndoBuffer.undoRecords d' rest).2 r).1)
        (UndoBuffer.undoRecords d' rest).1 = d'
      rw [hu, hr1]
      exact hr

namespace UndoBuffer

/-- Call `undo()` n times in sequence, propagating the first error. -/
def undoN : Nat → UndoBufferState → World → Except String (UndoBufferState × World)
  | 0, b, w => .ok (b, w)
  | n + 1, b, w =>
    match undo b w with
    | .ok (b', w') => undoN n b' w'
    | .error e => .error e

/-- Call `redo()` n times in sequence, propagating the first error. -/
def redoN : Nat → UndoBufferState → World → Except String (UndoBufferState × World)
  | 0, b, w => .ok (b, w)
  | n + 1, b, w =>
    match redo b w with
    | .ok (b', w') => redoN n b' w'
    | .error e => .error e

/-- Push a sequence of batches, each paired with the live world observed
right after its mutations (the world `getCaret` reads at push time). -/
def pushBatches (b : UndoBufferState) :
    List (List UndoBufferRecord × World) → Except String UndoBufferState
  | [] => .ok b
  | (rs, w) :: rest =>
    match push rs false b w with
    | .ok b' => pushBatches b' rest
    | .error e => .error e

end UndoBuffer

/-- An edit session: a chain of observer batches.  Each element carries
the batch's records and the live world right after the batch, whose
selection is non-null; every record detaches at most one node. -/
def DocChain : Doc → List (List UndoBufferRecord × World) → Doc → Prop
  | d, [], dn => dn = d
  | d, (rs, w) :: rest, dn =>
    StepBatch d rs w.doc ∧ (∃ rng, w.sel = some rng) ∧
      (∀ r ∈ rs, r.removedNodes.length ≤ 1) ∧ DocChain w.doc rest dn

/-- The buffer slots `push` writes for a chain of batches. -/
def freshPieces (r0 : Rng) (L : List (List UndoBufferRecord × World)) :
    List (Option UndoBufferPiece) :=
  L.map (fun rw => some { records := rw.1, oldRange := r0, newRange := rw.2.sel })

/-- The same slots after `#undo` has stashed the live values into the
records (the in-place mutation performed during the undo sweep). -/
def primedPieces (r0 : Rng) (L : List (List UndoBufferRecord × World)) :
    List (Option UndoBufferPiece) :=
  L.map (fun rw => some { records := (UndoBuffer.undoRecords rw.2.doc rw.1).1, oldRange := r0,
                          newRange := rw.2.sel })

theorem clearSlots_id (p : Nat → Bool) (l : List (Option UndoBufferPiece)) :
    ∀ k, (∀ i, k ≤ i → i < k + l.length → p i = false) →
      UndoBuffer.clearSlots p l k = l := by
  induction l with
  | nil => intro k _; rfl
  | cons x rest ih =>
    intro k h
    have hk : p k = false := h k le_rfl (by simp)
    show (if p k then none else x) :: UndoBuffer.clearSlots p rest (k + 1) = x :: rest
    rw [hk, if_neg (by simp), ih (k + 1) (fun i h1 h2 => h i (by omega)
      (by simp only [List.length_cons]; omega))]

theorem getD_middle (Q X : List (Option UndoBufferPiece)) (p : Option UndoBufferPiece) :
    (Q ++ p :: X).getD Q.length none = p := by
  induction Q with
  | nil => rfl
  | cons q rest ih => simpa using ih

theorem set_middle (Q X : List (Option UndoBufferPiece)) (p p' : Option UndoBufferPiece) :
    (Q ++ p :: X).set Q.length p' = Q ++ p' :: X := by
  induction Q with
  | nil => rfl
  | cons q rest ih => simpa [List.set] using ih

theorem undoN_add (m k : Nat) : ∀ b w, UndoBuffer.undoN (m + k) b w =
    match UndoBuffer.undoN m b w with
    | .ok (b', w') => UndoBuffer.undoN k b' w'
    | .error e => .error e := by
  induction m with
  | zero =>
    intro b w
    rw [Nat.zero_add]
    rfl
  | succ m ih =>
    intro b w
    have hshift : m + 1 + k = (m + k) + 1 := by omega
    rw [hshift]
    cases hu : UndoBuffer.undo b w with
    | error e =>
      show (match UndoBuffer.undo b w with
            | .ok (b', w') => UndoBuffer.undoN (m + k) b' w'
            | .error e => .error e) = _
      rw [hu]
      show Except.error e = (match UndoBuffer.undoN (m + 1) b w with
            | .ok (b', w') => UndoBuffer.undoN k b' w'
            | .error e => .error e)
      show Except.error e = (match (match UndoBuffer.undo b w with
            | .ok (b', w') => UndoBuffer.undoN m b' w'
            | .error e => .error e) with
            | .ok (b', w') => UndoBuffer.undoN k b' w'
            | .error e => .error e)
      rw [hu]
    | ok p =>
      obtain ⟨b', w'⟩ := p
      show (match UndoBuffer.undo b w with
            | .ok (b', w') => UndoBuffer.undoN (m + k) b' w'
            | .error e => .error e) = _
      rw [hu]
      show UndoBuffer.undoN (m + k) b' w' = (match UndoBuffer.undoN (m + 1) b w with
            | .ok (b', w') => UndoBuffer.undoN k b' w'
            | .error e => .error e)
      show UndoBuffer.undoN (m + k) b' w' = (match (match UndoBuffer.undo b w with
            | .ok (b', w') => UndoBuffer.undoN m b' w'
            | .error e => .error e) with
            | .ok (b', w') => UndoBuffer.undoN k b' w'
            | .error e => .error e)
      rw [hu]
      exact ih b' w'

theorem toNat_natCast (k : Nat) : ((k : Int)).toNat = k := rfl

theorem undo_step (C N : Int) (k : Nat) (Q X : List (Option UndoBufferPiece)) (r0 : Rng)
    (piece : UndoBufferPiece) (w : World)
    (hC : 0 < C) (hkN : ((k : Int) + 1) ≤ N) (hNC : N < C) (hQ : Q.length = k) :
    UndoBuffer.undo
      { bufferSize := C, offset := 0, pos := (k : Int) + 1, endPos := N,
        buffer := Q ++ some piece :: X, range := r0 } w =
    .ok ({ bufferSize := C, offset := 0, pos := (k : Int), endPos := N,
           buffer := Q ++ some { piece with
             records := (UndoBuffer.undoRecords w.doc piece.records).1 } :: X,
           range := r0 },
         { doc := (UndoBuffer.undoRecords w.doc piece.records).2,
           sel := some piece.oldRange }) := by
  have hread : ((k : Int) + 1 + C - 1).tmod C = (k : Int) := by
    have hsh : (k : Int) + 1 + C - 1 = (k : Int) + C := by ring
    rw [hsh]
    exact tmod_shift _ _ (by positivity) (by omega)
  have hex : UndoBuffer.existBuffer
      { bufferSize := C, offset := 0, pos := (k : Int) + 1, endPos := N,
        buffer := Q ++ some piece :: X, range := r0 } ((k : Int)) = true := by
    unfold UndoBuffer.existBuffer
    simp only
    rw [if_pos (by omega : (0 : Int) ≠ N), if_pos (by omega : (0 : Int) < N)]
    simp only [Bool.and_eq_true, decide_eq_true_eq]
    omega
  simp only [UndoBuffer.undo, hread, hex, if_true]
  rw [toNat_natCast, ← hQ, getD_middle]
  simp only [set_middle]

theorem redo_step (C N : Int) (k : Nat) (Q X : List (Option UndoBufferPiece)) (r0 : Rng)
    (piece : UndoBufferPiece) (rng : Rng) (w : World)
    (hnew : piece.newRange = some rng)
    (hC : 0 < C) (hkN : ((k : Int) + 1) ≤ N) (hNC : N < C) (hQ : Q.length = k) :
    UndoBuffer.redo
      { bufferSize := C, offset := 0, pos := (k : Int), endPos := N,
        buffer := Q ++ some piece :: X, range := r0 } w =
    .ok ({ bufferSize := C, offset := 0, pos := (k : Int) + 1, endPos := N,
           buffer := Q ++ some piece :: X, range := r0 },
         { doc := UndoBuffer.redoRecords w.doc piece.records, sel := some rng }) := by
  have hex : UndoBuffer.existBuffer
      { bufferSize := C, offset := 0, pos := (k : Int), endPos := N,
        buffer := Q ++ some piece :: X, range := r0 } ((k : Int)) = true := by
    unfold UndoBuffer.existBuffer
    simp only
    rw [if_pos (by omega : (0 : Int) ≠ N), if_pos (by omega : (0 : Int) < N)]
    simp only [Bool.and_eq_true, decide_eq_true_eq]
    omega
  have hmod : ((k : Int) + 1).tmod C = (k : Int) + 1 :=
    tmod_small _ _ (by positivity) (by omega)
  simp only [UndoBuffer.redo, hex, if_true]
  rw [toNat_natCast, ← hQ, getD_middle]
  simp only [hnew]
  rw [hQ, hmod]

theorem push_step (C : Int) (k : Nat) (Q : List (Option UndoBufferPiece)) (r0 : Rng)
    (rs : List UndoBufferRecord) (w : World)
    (hC : 0 < C) (hkC : ((k : Int) + 1) < C) (hQ : Q.length = k) :
    UndoBuffer.push rs false
      { bufferSize := C, offset := 0, pos := (k : Int), endPos := (k : Int),
        buffer := Q, range := r0 } w =
    .ok { bufferSize := C, offset := 0, pos := (k : Int) + 1, endPos := (k : Int) + 1,
          buffer := Q ++ [some { records := rs, oldRange := r0, newRange := w.sel }],
          range := r0 } := by
  have hpos1 : ((k : Int) + 1).tmod C = (k : Int) + 1 :=
    tmod_small _ _ (by positivity) hkC
  simp only [UndoBuffer.push]
  rw [if_neg (by omega : ¬ C ≤ 0), if_neg (by simp : ¬ (false : Bool) = true)]
  simp only [UndoBuffer.pushNew, UndoBuffer.mkPiece]
  rw [toNat_natCast]
  rw [if_neg (by omega : ¬ k < Q.length)]
  simp only [hpos1]
  rw [if_neg (by omega : ¬ (k : Int) + 1 = 0), if_pos (by omega : (0 : Int) < (k : Int) + 1)]
  rw [clearSlots_id]
  intro i _ hi
  simp only [Nat.zero_add, List.length_append, List.length_cons, List.length_nil, hQ] at hi
  simp only [Bool.or_eq_false_iff, decide_eq_false_iff_not]
  constructor
  · push_cast
    omega
  · push_cast
    omega

theorem pushBatches_shape (L : List (List UndoBufferRecord × World)) :
    ∀ (C : Int) (k : Nat) (Q : List (Option UndoBufferPiece)) (r0 : Rng),
    0 < C → ((k : Int) + L.length) < C → Q.length = k →
    UndoBuffer.pushBatches
      { bufferSize := C, offset := 0, pos := (k : Int), endPos := (k : Int),
        buffer := Q, range := r0 } L =
    .ok { bufferSize := C, offset := 0, pos := (k : Int) + L.length,
          endPos := (k : Int) + L.length,
          buffer := Q ++ freshPieces r0 L, range := r0 } := by
  induction L with
  | nil =>
    intro C k Q r0 hC hlt hQ
    simp [UndoBuffer.pushBatches, freshPieces]
  | cons rw rest ih =>
    intro C k Q r0 hC hlt hQ
    obtain ⟨rs, w⟩ := rw
    have hlt1 : (k : Int) + 1 < C := by
      simp only [List.length_cons] at hlt
      push_cast at hlt
      omega
    have hp := push_step C k Q r0 rs w hC hlt1 hQ
    show (match UndoBuffer.push rs false
          { bufferSize := C, offset := 0, pos := (k : Int), endPos := (k : Int),
            buffer := Q, range := r0 } w with
          | .ok b' => UndoBuffer.pushBatches b' rest
          | .error e => .error e) = _
    rw [hp]
    show UndoBuffer.pushBatches
      { bufferSize := C, offset := 0, pos := (k : Int) + 1, endPos := (k : Int) + 1,
        buffer := Q ++ [some { records := rs, oldRange := r0, newRange := w.sel }],
        range := r0 } rest = _
    have hcast : (k : Int) + 1 = (((k + 1 : Nat)) : Int) := by push_cast; ring
    rw [hcast]
    have hih := ih C (k + 1)
      (Q ++ [some { records := rs, oldRange := r0, newRange := w.sel }]) r0 hC
      (by simp only [List.length_cons] at hlt; push_cast at hlt ⊢; omega)
      (by simp [hQ])
    rw [hih]
    rw [Except.ok.injEq, UndoBufferState.mk.injEq]
    refine ⟨rfl, rfl, by simp only [List.length_cons]; push_cast; ring,
      by simp only [List.length_cons]; push_cast; ring, ?_, rfl⟩
    simp [freshPieces]


theorem undoN_chain (L : List (List UndoBufferRecord × World)) :
    ∀ (C N : Int) (k : Nat) (Q S : List (Option UndoBufferPiece)) (r0 : Rng)
      (dStart dEnd : Doc) (s : Option Rng),
    Wf dStart → DocChain dStart L dEnd →
    0 < C → ((k : Int) + L.length) ≤ N → N < C → Q.length = k →
    ∃ s', UndoBuffer.undoN L.length
      { bufferSize := C, offset := 0, pos := (k : Int) + L.length, endPos := N,
        buffer := Q ++ freshPieces r0 L ++ S, range := r0 }
      { doc := dEnd, sel := s } =
    .ok ({ bufferSize := C, offset := 0, pos := (k : Int), endPos := N,
           buffer := Q ++ primedPieces r0 L ++ S, range := r0 },
         { doc := dStart, sel := s' }) := by
  induction L with
  | nil =>
    intro C N k Q S r0 dStart dEnd s hwf hch hC hle hNC hQ
    refine ⟨s, ?_⟩
    have hd : dEnd = dStart := hch
    subst hd
    simp [UndoBuffer.undoN, freshPieces, primedPieces]
  | cons rw rest ih =>
    intro C N k Q S r0 dStart dEnd s hwf hch hC hle hNC hQ
    obtain ⟨rs, w⟩ := rw
    obtain ⟨hsb, ⟨rng, hsel⟩, hrem, hch2⟩ := hch
    have hwfm : Wf w.doc := stepBatch_wf rs dStart w.doc hwf hsb
    obtain ⟨hu2, _⟩ := stepBatch_inverse rs dStart w.doc hwf hsb hrem
    refine ⟨some r0, ?_⟩
    have hLlen : ((rs, w) :: rest).length = rest.length + 1 := rfl
    rw [hLlen, undoN_add rest.length 1]
    obtain ⟨s1, hs1⟩ := ih C N (k + 1)
      (Q ++ [some { records := rs, oldRange := r0, newRange := w.sel }]) S r0
      w.doc dEnd s hwfm hch2 hC
      (by simp only [List.length_cons] at hle; push_cast at hle ⊢; omega) hNC (by simp [hQ])
    have hstate :
        ({ bufferSize := C, offset := 0,
           pos := (k : Int) + ((rest.length + 1 : Nat) : Int), endPos := N,
           buffer := Q ++ freshPieces r0 ((rs, w) :: rest) ++ S,
           range := r0 } : UndoBufferState) =
        ({ bufferSize := C, offset := 0,
           pos := (((k + 1 : Nat)) : Int) + (rest.length : Int), endPos := N,
           buffer := (Q ++ [some { records := rs, oldRange := r0, newRange := w.sel }]) ++
             freshPieces r0 rest ++ S,
           range := r0 } : UndoBufferState) := by
      rw [UndoBufferState.mk.injEq]
      refine ⟨rfl, rfl, by push_cast; ring, rfl, ?_, rfl⟩
      simp [freshPieces]
    rw [hstate, hs1]
    show UndoBuffer.undoN 1
      { bufferSize := C, offset := 0, pos := (((k + 1 : Nat)) : Int), endPos := N,
        buffer := (Q ++ [some { records := rs, oldRange := r0, newRange := w.sel }]) ++
          primedPieces r0 rest ++ S,
        range := r0 } { doc := w.doc, sel := s1 } = _
    have hstate2 :
        ({ bufferSize := C, offset := 0, pos := (((k + 1 : Nat)) : Int), endPos := N,
           buffer := (Q ++ [some { records := rs, oldRange := r0, newRange := w.sel }]) ++
             primedPieces r0 rest ++ S,
           range := r0 } : UndoBufferState) =
        ({ bufferSize := C, offset := 0, pos := (k : Int) + 1, endPos := N,
           buffer := Q ++ some { records := rs, oldRange := r0, newRange := w.sel } ::
             (primedPieces r0 rest ++ S),
           range := r0 } : UndoBufferState) := by
      rw [UndoBufferState.mk.injEq]
      refine ⟨rfl, rfl, by push_cast; ring, rfl, by simp, rfl⟩
    rw [hstate2]
    have hstep := undo_step C N k Q (primedPieces r0 rest ++ S) r0
      { records := rs, oldRange := r0, newRange := w.sel } { doc := w.doc, sel := s1 }
      hC (by simp only [List.length_cons] at hle; push_cast at hle; omega) hNC hQ
    show (match UndoBuffer.undo
        { bufferSize := C, offset := 0, pos := (k : Int) + 1, endPos := N,
          buffer := Q ++ some { records := rs, oldRange := r0, newRange := w.sel } ::
            (primedPieces r0 rest ++ S),
          range := r0 } { doc := w.doc, sel := s1 } with
      | .ok (b', w') => UndoBuffer.undoN 0 b' w'
      | .error e => .error e) = _
    rw [hstep]
    show Except.ok _ = _
    rw [Except.ok.injEq, Prod.mk.injEq]
    constructor
    · rw [UndoBufferState.mk.injEq]
      refine ⟨rfl, rfl, rfl, rfl, ?_, rfl⟩
      show Q ++
          some { records := (UndoBuffer.undoRecords w.doc rs).1, oldRange := r0,
                 newRange := w.sel } ::
            (primedPieces r0 rest ++ S) =
          Q ++ primedPieces r0 ((rs, w) :: rest) ++ S
      simp [primedPieces]
    · rw [World.mk.injEq]
      exact ⟨hu2, rfl⟩

theorem redoN_chain (L : List (List UndoBufferRecord × World)) :
    ∀ (C N : Int) (k : Nat) (Q S : List (Option UndoBufferPiece)) (r0 : Rng)
      (dStart dEnd : Doc) (s : Option Rng),
    Wf dStart → DocChain dStart L dEnd →
    0 < C → ((k : Int) + L.length) ≤ N → N < C → Q.length = k →
    ∃ s', UndoBuffer.redoN L.length
      { bufferSize := C, offset := 0, pos := (k : Int), endPos := N,
        buffer := Q ++ primedPieces r0 L ++ S, range := r0 }
      { doc := dStart, sel := s } =
    .ok ({ bufferSize := C, offset := 0, pos := (k : Int) + L.length, endPos := N,
           buffer := Q ++ primedPieces r0 L ++ S, range := r0 },
         { doc := dEnd, sel := s' }) := by
  induction L with
  | nil =>
    intro C N k Q S r0 dStart dEnd s hwf hch hC hle hNC hQ
    refine ⟨s, ?_⟩
    have hd : dEnd = dStart := hch
    subst hd
    simp [UndoBuffer.redoN, primedPieces]
  | cons rw rest ih =>
    intro C N k Q S r0 dStart dEnd s hwf hch hC hle hNC hQ
    obtain ⟨rs, w⟩ := rw
    obtain ⟨hsb, ⟨rng, hsel⟩, hrem, hch2⟩ := hch
    have hwfm : Wf w.doc := stepBatch_wf rs dStart w.doc hwf hsb
    obtain ⟨_, hr2⟩ := stepBatch_inverse rs dStart w.doc hwf hsb hrem
    have hstate :
        ({ bufferSize := C, offset := 0, pos := (k : Int), endPos := N,
           buffer := Q ++ primedPieces r0 ((rs, w) :: rest) ++ S,
           range := r0 } : UndoBufferState) =
        ({ bufferSize := C, offset := 0, pos := (k : Int), endPos := N,
           buffer := Q ++
             some { records := (UndoBuffer.undoRecords w.doc rs).1, oldRange := r0,
                    newRange := w.sel } ::
               (primedPieces r0 rest ++ S),
           range := r0 } : UndoBufferState) := by
      rw [UndoBufferState.mk.injEq]
      refine ⟨rfl, rfl, rfl, rfl, ?_, rfl⟩
      simp [primedPieces]
    have hstep := redo_step C N k Q (primedPieces r0 rest ++ S) r0
      { records := (UndoBuffer.undoRecords w.doc rs).1, oldRange := r0, newRange := w.sel }
      rng { doc := dStart, sel := s } hsel
      hC (by simp only [List.length_cons] at hle; push_cast at hle; omega) hNC hQ
    obtain ⟨s1, hs1⟩ := ih C N (k + 1)
      (Q ++ [some { records := (UndoBuffer.undoRecords w.doc rs).1, oldRange := r0,
                    newRange := w.sel }]) S r0
      w.doc dEnd (some rng) hwfm hch2 hC
      (by simp only [List.length_cons] at hle; push_cast at hle ⊢; omega) hNC (by simp [hQ])
    refine ⟨s1, ?_⟩
    show UndoBuffer.redoN (rest.length + 1)
      { bufferSize := C, offset := 0, pos := (k : Int), endPos := N,
        buffer := Q ++ primedPieces r0 ((rs, w) :: rest) ++ S, range := r0 }
      { doc := dStart, sel := s } = _
    rw [hstate]
    show (match UndoBuffer.redo
        { bufferSize := C, offset := 0, pos := (k : Int), endPos := N,
          buffer := Q ++
            some { records := (UndoBuffer.undoRecords w.doc rs).1, oldRange := r0,
                   newRange := w.sel } ::
              (primedPieces r0 rest ++ S),
          range := r0 } { doc := dStart, sel := s } with
      | .ok (b', w') => UndoBuffer.redoN rest.length b' w'
      | .error e => .error e) = _
    rw [hstep]
    show UndoBuffer.redoN rest.length _
      { doc := UndoBuffer.redoRecords dStart (UndoBuffer.undoRecords w.doc rs).1,
        sel := some rng } = _
    rw [hr2]
    have hstate2 :
        ({ bufferSize := C, offset := 0, pos := (k : Int) + 1, endPos := N,
           buffer := Q ++
             some { records := (UndoBuffer.undoRecords w.doc rs).1, oldRange := r0,
                    newRange := w.sel } ::
               (primedPieces r0 rest ++ S),
           range := r0 } : UndoBufferState) =
        ({ bufferSize := C, offset := 0, pos := (((k + 1 : Nat)) : Int), endPos := N,
           buffer := (Q ++
             [some { records := (UndoBuffer.undoRecords w.doc rs).1, oldRange := r0,
                     newRange := w.sel }]) ++ primedPieces r0 rest ++ S,
           range := r0 } : UndoBufferState) := by
      rw [UndoBufferState.mk.injEq]
      refine ⟨rfl, rfl, by push_cast; ring, rfl, by simp, rfl⟩
    rw [hstate2]
    rw [hs1]
    rw [Except.ok.injEq, Prod.mk.injEq]
    constructor
    · rw [UndoBufferState.mk.injEq]
      refine ⟨rfl, rfl, by simp only [List.length_cons]; push_cast; ring, rfl, ?_, rfl⟩
      simp [primedPieces]
    · rfl

/-- A one-text-node document holding `"a"`, used as a concrete edit
session start state. -/
def docC1a : Doc :=
  { nodes := [(0, { kind := NKind.text, value := some ("a"), attrs := [], children := [] })],
    nextId := 1 }

/-- The same document after the edit `"a"` → `"b"`. -/
def docC1b : Doc := docC1a.setNodeValue 0 (some ("b"))

/-- The mutation record the observer delivers for that edit. -/
def recC1 : UndoBufferRecord :=
  { type := RType.characterData, target := 0, addedNodes := [], removedNodes := [],
    previousSibling := none, nextSibling := none, attributeName := none,
    attributeNamespace := none, oldValue := some ("a"), newValue := none }

/-- The live world right after the edit. -/
def wC1 : World := { doc := docC1b, sel := some default }

theorem wf_docC1a : Wf docC1a := by
  refine ⟨by decide, by decide, ?_, by decide⟩
  intro k1 k2 d1 d2 c h1 h2 hc1 hc2
  simp only [docC1a, List.mem_singleton, Prod.mk.injEq] at h1 h2
  obtain ⟨hk1, hd1⟩ := h1
  obtain ⟨hk2, hd2⟩ := h2
  rw [hk1, hk2]

theorem chainC1 : DocChain docC1a [([recC1], wC1)] docC1b := by
  refine ⟨?_, ⟨default, rfl⟩, by decide, rfl⟩
  show StepBatch docC1a [recC1] docC1b
  refine StepBatch.cons docC1a docC1b docC1b recC1 [] ?_ (StepBatch.nil docC1b)
  exact StepRec.charData docC1a recC1
    { kind := NKind.text, value := some ("a"), attrs := [], children := [] }
    (some ("b")) rfl rfl rfl

/-- C1, counterexample: with ring-buffer capacity 1, the one-edit session
`"a" → "b"` (n = 1 ≤ capacity) cannot be undone at all: after the push,
`offset == endPos`, so `undo()` is a no-op and the tree stays at the
post-edit state, which differs from the pre-edit state. -/
theorem c1_capacity_roundtrip_fails :
    DocChain docC1a [([recC1], wC1)] docC1b ∧
    UndoBuffer.pushBatches (UndoBuffer.initState 1) [([recC1], wC1)] =
      .ok { bufferSize := 1, offset := 0, pos := 0, endPos := 0,
            buffer := [some { records := [recC1], oldRange := default,
                              newRange := some default }],
            range := default } ∧
    UndoBuffer.undoN 1
      { bufferSize := 1, offset := 0, pos := 0, endPos := 0,
        buffer := [some { records := [recC1], oldRange := default, newRange := some default }],
        range := default } wC1 = .ok
      ({ bufferSize := 1, offset := 0, pos := 0, endPos := 0,
         buffer := [some { records := [recC1], oldRange := default, newRange := some default }],
         range := default }, wC1) ∧
    wC1.doc ≠ docC1a :=
  ⟨chainC1, rfl, rfl, by decide⟩

/-- C1 (amended): for every edit session of n batches with n ≤ capacity − 1
(not n ≤ capacity: one slot of the ring is sacrificed as soon as the
buffer wraps), in which every record detaches at most one node (the
`#undo` loop reinserts multi-node removals in reversed order), starting
from a fresh buffer, n calls to `undo()` return the tree to its state
before the first batch, and n subsequent calls to `redo()` return it to
the state after the last batch. -/
theorem c1_undo_redo_roundtrip (C : Int) (L : List (List UndoBufferRecord × World))
    (d0 dn : Doc) (s : Option Rng)
    (hwf : Wf d0) (hchain : DocChain d0 L dn)
    (hC0 : 0 < C) (hlen : (L.length : Int) ≤ C - 1) :
    ∃ b1 b2 w2 b3 w3,
      UndoBuffer.pushBatches (UndoBuffer.initState C) L = .ok b1 ∧
      UndoBuffer.undoN L.length b1 { doc := dn, sel := s } = .ok (b2, w2) ∧ w2.doc = d0 ∧
      UndoBuffer.redoN L.length b2 w2 = .ok (b3, w3) ∧ w3.doc = dn := by
  have hpush := pushBatches_shape L C 0 [] default hC0 (by push_cast; omega) rfl
  have hN : ((0 : Nat) : Int) + (L.length : Int) < C := by push_cast; omega
  obtain ⟨s1, hundo⟩ := undoN_chain L C (((0 : Nat) : Int) + (L.length : Int)) 0 [] [] default
    d0 dn s hwf hchain hC0 (le_refl _) hN rfl
  obtain ⟨s2, hredo⟩ := redoN_chain L C (((0 : Nat) : Int) + (L.length : Int)) 0 [] [] default
    d0 dn s1 hwf hchain hC0 (le_refl _) hN rfl
  simp only [Nat.cast_zero, zero_add, List.nil_append, List.append_nil] at hpush hundo hredo
  exact ⟨_, _, _, _, _, hpush, hundo, rfl, hredo, rfl⟩

/-- Witness for the amended C1 round-trip at capacity 2 with the
one-batch session `"a" → "b"`. -/
theorem c1_undo_redo_roundtrip_witness :
    Wf docC1a ∧ DocChain docC1a [([recC1], wC1)] docC1b ∧
    (∃ b1 b2 w2 b3 w3,
      UndoBuffer.pushBatches (UndoBuffer.initState 2) [([recC1], wC1)] = .ok b1 ∧
      UndoBuffer.undoN 1 b1 { doc := docC1b, sel := some default } = .ok (b2, w2) ∧
      w2.doc = docC1a ∧
      UndoBuffer.redoN 1 b2 w2 = .ok (b3, w3) ∧ w3.doc = docC1b) :=
  ⟨wf_docC1a, chainC1,
   c1_undo_redo_roundtrip 2 [([recC1], wC1)] docC1a docC1b (some default)
     wf_docC1a chainC1 (by decide) (by decide)⟩

/-- A paragraph with two line-break children, the state at composition
start for the C7 counterexample. -/
def docC7a : Doc :=
  { nodes := [(1, { kind := NKind.element ("p"), value := none, attrs := [], children := [2, 3] }),
              (2, { kind := NKind.element ("br"), value := none, attrs := [], children := [] }),
              (3, { kind := NKind.element ("br"), value := none, attrs := [], children := [] })],
    nextId := 4 }

/-- The same tree after the in-composition edit removed both children. -/
def docC7b : Doc :=
  docC7a.updateNode 1 (fun x => { x with children := [] ++ ([] : List Nat) ++ [] })

/-- The scratch record the temporary observer collects for that removal. -/
def recC7 : UndoBufferRecord :=
  { type := RType.childList, target := 1, addedNodes := [], removedNodes := [2, 3],
    previousSibling := none, nextSibling := none, attributeName := none,
    attributeNamespace := none, oldValue := none, newValue := none }

theorem stepC7 : StepRec docC7a recC7 docC7b :=
  StepRec.childList docC7a recC7
    { kind := NKind.element ("p"), value := none, attrs := [], children := [2, 3] } [] []
    rfl rfl rfl ⟨fun r hr => Option.noConfusion hr, fun _ => rfl⟩
    (fun a ha => absurd ha (List.not_mem_nil a)) List.nodup_nil
    (by decide)


/-- The tree the cancelled-composition rollback actually produces:
the two removed line breaks come back in reversed order. -/
def docC7r : Doc :=
  { nodes := [(1, { kind := NKind.element ("p"), value := none, attrs := [], children := [3, 2] }),
              (2, { kind := NKind.element ("br"), value := none, attrs := [], children := [] }),
              (3, { kind := NKind.element ("br"), value := none, attrs := [], children := [] })],
    nextId := 4 }

/-- C7, counterexample: a cancelled composition whose scratch record
removed the two line breaks rolls back to children `[3, 2]`, not the
original `[2, 3]`: the `#undo` rollback reinserts `removedNodes` in
reversed order, so the tree is not byte-identical to the
pre-composition state (though no batch is pushed, as claimed). -/
theorem c7_cancelled_rollback_reverses :
    StepBatch docC7a [recC7] docC7b ∧
    UndoBuffer.compositionEnd 9 1 "" none [recC7] (UndoBuffer.initState 5)
        { doc := docC7b, sel := some default } =
      some (.ok (UndoBuffer.initState 5, { doc := docC7r, sel := some default })) ∧
    docC7r ≠ docC7a :=
  ⟨StepBatch.cons docC7a docC7b docC7b recC7 [] stepC7 (StepBatch.nil docC7b),
   rfl, by decide⟩

/-- C7 (amended): a cancelled composition (empty commit) pushes no batch
— the ring-buffer state is returned untouched — and the deferred
rollback reverse-applies the scratch records, restoring the tree to its
composition-start state, provided every scratch record detached at most
one node (the rollback reinserts multi-node removals in reversed
order, so those are excluded). -/
theorem c7_cancelled_composition_rolls_back (fuel root : Nat) (oldValue : Option String)
    (rs : List UndoBufferRecord) (b : UndoBufferState) (d0 d1 : Doc) (sel : Option Rng)
    (hwf : Wf d0) (hsb : StepBatch d0 rs d1) (hrem : ∀ r ∈ rs, r.removedNodes.length ≤ 1) :
    UndoBuffer.compositionEnd fuel root "" oldValue rs b { doc := d1, sel := sel } =
      some (.ok (b, { doc := d0, sel := sel })) := by
  obtain ⟨hu, _⟩ := stepBatch_inverse rs d0 d1 hwf hsb hrem
  simp only [UndoBuffer.compositionEnd]
  rw [if_neg (by decide : ¬ ("" : String).length > 0)]
  show some (Except.ok (b,
    ({ doc := (UndoBuffer.undoRecords d1 rs).2, sel := sel } : World))) =
    some (Except.ok (b, ({ doc := d0, sel := sel } : World)))
  rw [hu]

/-- One paragraph with a single line break, for the C7 witness. -/
def docC7w : Doc :=
  { nodes := [(1, { kind := NKind.element ("p"), value := none, attrs := [], children := [2] }),
              (2, { kind := NKind.element ("br"), value := none, attrs := [], children := [] })],
    nextId := 3 }

/-- The same tree after the composition removed the line break. -/
def docC7wb : Doc :=
  docC7w.updateNode 1 (fun x => { x with children := [] ++ ([] : List Nat) ++ [] })

/-- The scratch record for that single-node removal. -/
def recC7w : UndoBufferRecord :=
  { type := RType.childList, target := 1, addedNodes := [], removedNodes := [2],
    previousSibling := none, nextSibling := none, attributeName := none,
    attributeNamespace := none, oldValue := none, newValue := none }

theorem wf_docC7w : Wf docC7w := by
  refine ⟨by decide, by decide, ?_, by decide⟩
  intro k1 k2 d1 d2 c h1 h2 hc1 hc2
  simp only [docC7w, List.mem_cons, List.mem_singleton, Prod.mk.injEq,
    List.not_mem_nil, or_false] at h1 h2
  rcases h1 with ⟨hk1, hd1⟩ | ⟨hk1, hd1⟩ <;> rcases h2 with ⟨hk2, hd2⟩ | ⟨hk2, hd2⟩
  · rw [hk1, hk2]
  · rw [hd2] at hc2
    simp at hc2
  · rw [hd1] at hc1
    simp at hc1
  · rw [hk1, hk2]

theorem stepC7w : StepRec docC7w recC7w docC7wb :=
  StepRec.childList docC7w recC7w
    { kind := NKind.element ("p"), value := none, attrs := [], children := [2] } [] []
    rfl rfl rfl ⟨fun r hr => Option.noConfusion hr, fun _ => rfl⟩
    (fun a ha => absurd ha (List.not_mem_nil a)) List.nodup_nil
    (by decide)

/-- Witness for the amended C7 rollback at a concrete one-removal
composition. -/
theorem c7_cancelled_composition_rolls_back_witness :
    Wf docC7w ∧ StepBatch docC7w [recC7w] docC7wb ∧
    UndoBuffer.compositionEnd 9 1 "" none [recC7w] (UndoBuffer.initState 5)
        { doc := docC7wb, sel := some default } =
      some (.ok (UndoBuffer.initState 5, { doc := docC7w, sel := some default })) :=
  ⟨wf_docC7w, StepBatch.cons docC7w docC7wb docC7wb recC7w [] stepC7w (StepBatch.nil docC7wb),
   c7_cancelled_composition_rolls_back 9 1 none [recC7w] (UndoBuffer.initState 5)
     docC7w docC7wb (some default) wf_docC7w
     (StepBatch.cons docC7w docC7wb docC7wb recC7w [] stepC7w (StepBatch.nil docC7wb))
     (by decide)⟩

/-- The `TextContent` record the `compositionend` handler synthesizes:
target is the frozen caret's container, `oldValue` the value frozen at
`compositionstart`, siblings read from the live tree. -/
def c8synth (r0 : Rng) (v0 : Option String) (d1 : Doc) : UndoBufferRecord :=
  { type := RType.characterData, target := r0.startContainer, addedNodes := [],
    removedNodes := [],
    previousSibling := d1.previousSibling r0.startContainer,
    nextSibling := d1.nextSibling r0.startContainer,
    attributeName := none, attributeNamespace := none, oldValue := v0, newValue := none }

theorem normalize_noRule_exists (root : Nat) (d : Doc) (rng : Rng)
    (records : List UndoBufferRecord)
    (h : Nomalizer.NoRule root d records) :
    ∃ fuel, Nomalizer.normalize fuel root { doc := d, sel := some rng } records =
      some (.ok ({ doc := d, sel := some rng }, records)) := by
  obtain ⟨fuel, hf⟩ := normalizeGo_noRule_exists root
    { doc := d, range := some rng, records := records } h 0 0
  refine ⟨fuel, ?_⟩
  simp only [Nomalizer.normalize]
  rw [hf]

/-- C8 (amended): a committed composition (non-empty `e.data`) is pushed
as exactly one batch: the scratch records followed by the synthesized
`characterData` record carrying the frozen pre-composition value, and —
provided the buffer has a free slot below capacity (`k + 1 < C`, which
fails for capacity 1) and normalization finds no applicable rule — one
subsequent `undo()` returns the tree to its composition-start state in a
single step. -/
theorem c8_commit_single_undo
    (C : Int) (k : Nat) (Q : List (Option UndoBufferPiece)) (r0 : Rng) (root : Nat)
    (data : String) (v0 : Option String)
    (tempBuffer : List UndoBufferRecord) (d0 d1 : Doc) (rng : Rng)
    (hdata : 0 < data.length)
    (hC : 0 < C) (hkC : ((k : Int) + 1) < C) (hQ : Q.length = k)
    (hwf : Wf d0)
    (hsb : StepBatch d0 (tempBuffer ++ [c8synth r0 v0 d1]) d1)
    (hrem : ∀ r ∈ tempBuffer, r.removedNodes.length ≤ 1)
    (hnorule : Nomalizer.NoRule root d1 (tempBuffer ++ [c8synth r0 v0 d1])) :
    ∃ fuel b2 s',
      UndoBuffer.compositionEnd fuel root data v0 tempBuffer
        { bufferSize := C, offset := 0, pos := (k : Int), endPos := (k : Int),
          buffer := Q, range := r0 }
        { doc := d1, sel := some rng } =
      some (.ok
        ({ bufferSize := C, offset := 0, pos := (k : Int) + 1, endPos := (k : Int) + 1,
           buffer := Q ++ [some { records := tempBuffer ++ [c8synth r0 v0 d1],
                                  oldRange := r0, newRange := some rng }],
           range := r0 },
         { doc := d1, sel := some rng })) ∧
      UndoBuffer.undo
        { bufferSize := C, offset := 0, pos := (k : Int) + 1, endPos := (k : Int) + 1,
          buffer := Q ++ [some { records := tempBuffer ++ [c8synth r0 v0 d1],
                                 oldRange := r0, newRange := some rng }],
          range := r0 }
        { doc := d1, sel := some rng } = .ok (b2, { doc := d0, sel := s' }) := by
  have hremAll : ∀ r ∈ tempBuffer ++ [c8synth r0 v0 d1], r.removedNodes.length ≤ 1 := by
    intro r hr
    rcases List.mem_append.mp hr with hr | hr
    · exact hrem r hr
    · rw [List.mem_singleton.mp hr]
      exact Nat.zero_le 1
  obtain ⟨hu2, _⟩ := stepBatch_inverse (tempBuffer ++ [c8synth r0 v0 d1]) d0 d1 hwf hsb hremAll
  obtain ⟨fuel, hnorm⟩ := normalize_noRule_exists root d1 rng
    (tempBuffer ++ [c8synth r0 v0 d1]) hnorule
  refine ⟨fuel,
    { bufferSize := C, offset := 0, pos := (k : Int), endPos := (k : Int) + 1,
      buffer := Q ++
        some { records := (UndoBuffer.undoRecords d1 (tempBuffer ++ [c8synth r0 v0 d1])).1,
               oldRange := r0, newRange := some rng } :: [],
      range := r0 }, some r0, ?_, ?_⟩
  · simp only [UndoBuffer.compositionEnd]
    rw [if_pos hdata]
    show (match Nomalizer.normalize fuel root { doc := d1, sel := some rng }
        (tempBuffer ++ [c8synth r0 v0 d1]) with
      | none => none
      | some (Except.error e) => some (Except.error e)
      | some (Except.ok (w1, records)) =>
        match UndoBuffer.push records false
          { bufferSize := C, offset := 0, pos := (k : Int), endPos := (k : Int),
            buffer := Q, range := r0 } w1 with
        | Except.ok b1 => some (Except.ok (b1, w1))
        | Except.error e => some (Except.error e)) = _
    rw [hnorm]
    show (match UndoBuffer.push (tempBuffer ++ [c8synth r0 v0 d1]) false
        { bufferSize := C, offset := 0, pos := (k : Int), endPos := (k : Int),
          buffer := Q, range := r0 } { doc := d1, sel := some rng } with
      | Except.ok b1 => some (Except.ok (b1, ({ doc := d1, sel := some rng } : World)))
      | Except.error e => some (Except.error e)) = _
    rw [push_step C k Q r0 (tempBuffer ++ [c8synth r0 v0 d1])
      { doc := d1, sel := some rng } hC hkC hQ]
  · have hstep := undo_step C ((k : Int) + 1) k Q [] r0
      { records := tempBuffer ++ [c8synth r0 v0 d1], oldRange := r0, newRange := some rng }
      { doc := d1, sel := some rng } hC (le_refl _) hkC hQ
    rw [hstep, hu2]

/-- The one-text-node document after the committed composition
`"a" → "ab"`. -/
def docC8b : Doc := docC1a.setNodeValue 0 (some ("ab"))

/-- The buffer state after the capacity-1 composition push. -/
def bC8 : UndoBufferState :=
  { bufferSize := 1, offset := 0, pos := 0, endPos := 0,
    buffer := [some { records := [c8synth default (some ("a")) docC8b],
                      oldRange := default, newRange := some default }],
    range := default }

/-- C8, counterexample: with capacity 1 the committed composition
`"a" → "ab"` is pushed as one batch, but the written slot is immediately
outside the valid window (`offset == endPos` after the wrap), so the
single subsequent `undo()` is a no-op and does not restore the
pre-composition value. -/
theorem c8_capacity_one_commit_not_undoable :
    UndoBuffer.compositionEnd 5 1 "ab" (some ("a")) [] (UndoBuffer.initState 1)
        { doc := docC8b, sel := some default } =
      some (.ok (bC8, { doc := docC8b, sel := some default })) ∧
    UndoBuffer.undo bC8 { doc := docC8b, sel := some default } =
      .ok (bC8, { doc := docC8b, sel := some default }) ∧
    docC8b ≠ docC1a :=
  ⟨rfl, rfl, by decide⟩

theorem stepC8 : StepRec docC1a (c8synth default (some ("a")) docC8b) docC8b :=
  StepRec.charData docC1a (c8synth default (some ("a")) docC8b)
    { kind := NKind.text, value := some ("a"), attrs := [], children := [] }
    (some ("ab")) rfl rfl rfl

theorem noruleC8 : Nomalizer.NoRule 1 docC8b [c8synth default (some ("a")) docC8b] := by
  intro r hr ht
  rw [List.mem_singleton.mp hr] at ht
  exact absurd ht (by decide)

/-- Witness for the amended C8 single-batch/single-undo law at
capacity 2 with the text-only session `"a" → "ab"`. -/
theorem c8_commit_single_undo_witness :
    Wf docC1a ∧ StepBatch docC1a ([] ++ [c8synth default (some ("a")) docC8b]) docC8b ∧
    (∃ fuel b2 s',
      UndoBuffer.compositionEnd fuel 1 "ab" (some ("a")) []
        { bufferSize := 2, offset := 0, pos := ((0 : Nat) : Int), endPos := ((0 : Nat) : Int),
          buffer := [], range := default }
        { doc := docC8b, sel := some default } =
      some (.ok
        ({ bufferSize := 2, offset := 0, pos := ((0 : Nat) : Int) + 1,
           endPos := ((0 : Nat) : Int) + 1,
           buffer := [] ++ [some { records := [] ++ [c8synth default (some ("a")) docC8b],
                                   oldRange := default, newRange := some default }],
           range := default },
         { doc := docC8b, sel := some default })) ∧
      UndoBuffer.undo
        { bufferSize := 2, offset := 0, pos := ((0 : Nat) : Int) + 1,
          endPos := ((0 : Nat) : Int) + 1,
          buffer := [] ++ [some { records := [] ++ [c8synth default (some ("a")) docC8b],
                                  oldRange := default, newRange := some default }],
          range := default }
        { doc := docC8b, sel := some default } =
      .ok (b2, { doc := docC1a, sel := s' })) :=
  ⟨wf_docC1a,
   StepBatch.cons docC1a docC8b docC8b (c8synth default (some ("a")) docC8b) []
     stepC8 (StepBatch.nil docC8b),
   c8_commit_single_undo 2 0 [] default 1 "ab" (some ("a")) [] docC1a docC8b default
     (by decide) (by decide) (by decide) rfl wf_docC1a
     (StepBatch.cons docC1a docC8b docC8b (c8synth default (some ("a")) docC8b) []
       stepC8 (StepBatch.nil docC8b))
     (fun r hr => absurd hr (List.not_mem_nil r)) noruleC8⟩

/-- A `childList` insertion record with no removals. -/
def insRec (t : Nat) (added : List Nat) (prev next : Option Nat) : UndoBufferRecord :=
  { type := RType.childList, target := t, addedNodes := added, removedNodes := [],
    previousSibling := prev, nextSibling := next, attributeName := none,
    attributeNamespace := none, oldValue := none, newValue := none }

/-- Root `div` (node 0) with a bare text child (node 1) holding `v`:
the tree right after the C4 insertion. -/
def docC4 (v : String) : Doc :=
  { nodes := [(0, { kind := NKind.element ("div"), value := none, attrs := [], children := [1] }),
              (1, { kind := NKind.text, value := some v, attrs := [], children := [] })],
    nextId := 2 }

/-- The record the observer delivers for that insertion. -/
def recC4 : UndoBufferRecord := insRec 0 [1] none none

/-- The C4 tree after normalization: a synthesized paragraph (node 2)
wraps the text node. -/
def docC4f (v : String) : Doc :=
  { nodes := [(0, { kind := NKind.element ("div"), value := none, attrs := [], children := [2] }),
              (1, { kind := NKind.text, value := some v, attrs := [], children := [] }),
              (2, { kind := NKind.element ("p"), value := none, attrs := [], children := [1] })],
    nextId := 3 }

/-- The record log normalization actually leaves for C4: the rewritten
root record (now adding the paragraph) followed by the paragraph's
insertion record. -/
def recsC4 : List UndoBufferRecord := [insRec 0 [2] none none, insRec 2 [1] none none]

/-- The caret normalization leaves for the C4 scenario started from the
zero caret: translated into the synthesized paragraph. -/
def rngC4 : Rng :=
  { startContainer := 2, startOffset := 0, endContainer := 2, endOffset := 0 }

/-- C4, counterexample: normalizing the bare-text insertion leaves TWO
structural records, and the first still targets the root (it was
rewritten to add the synthesized paragraph, not dropped), contradicting
"exactly one structural record" and "no record targeting the root". -/
theorem c4_root_record_remains :
    Nomalizer.normalize 20 0 { doc := docC4 ("hi"), sel := some default } [recC4] =
      some (.ok ({ doc := docC4f ("hi"), sel := some rngC4 }, recsC4)) ∧
    recsC4.length ≠ 1 ∧ (recsC4.getD 0 default).target = 0 :=
  ⟨rfl, by decide, by decide⟩

/-- C4 (amended): inserting a bare text node directly under the root
and normalizing yields a synthesized paragraph wrapping the text node,
and the final log holds exactly two structural records: the root record
rewritten to add the paragraph (sole added node), and a new record
targeting the paragraph with the text node as its sole added child —
for every text content and every starting caret. -/
theorem c4_bare_text_normalization (v : String) (rng : Rng) :
    ∃ rng', Nomalizer.normalize 20 0 { doc := docC4 v, sel := some rng } [recC4] =
      some (.ok ({ doc := docC4f v, sel := some rng' }, recsC4)) :=
  ⟨_, rfl⟩

/-- Root `div` with an empty paragraph (node 1) into which a line break
(node 2) was just inserted as only child. -/
def docC5a : Doc :=
  { nodes := [(0, { kind := NKind.element ("div"), value := none, attrs := [], children := [1] }),
              (1, { kind := NKind.element ("p"), value := none, attrs := [], children := [2] }),
              (2, { kind := NKind.element ("br"), value := none, attrs := [], children := [] })],
    nextId := 3 }

/-- The observer record for that insertion. -/
def recC5a : UndoBufferRecord := insRec 1 [2] none none

/-- C5, counterexample: a line break inserted as the last (and only)
child of an empty paragraph is left alone by normalization — the
paragraph still has exactly one child — because the rule requires an
existing non-`br` previous sibling; the claimed "two line-break
children" outcome does not happen. -/
theorem c5_lone_br_stays_single :
    Nomalizer.normalize 20 0 { doc := docC5a, sel := some default } [recC5a] =
      some (.ok ({ doc := docC5a, sel := some default }, [recC5a])) ∧
    (docC5a.childrenOf 1).length = 1 :=
  ⟨by with_unfolding_all rfl, by decide⟩

/-- A paragraph holding a text node (2, content `v`) and a line break
(node 3) just inserted after it as last child. -/
def docC5b (v : String) : Doc :=
  { nodes := [(0, { kind := NKind.element ("div"), value := none, attrs := [], children := [1] }),
              (1, { kind := NKind.element ("p"), value := none, attrs := [], children := [2, 3] }),
              (2, { kind := NKind.text, value := some v, attrs := [], children := [] }),
              (3, { kind := NKind.element ("br"), value := none, attrs := [], children := [] })],
    nextId := 4 }

/-- The observer record for that insertion. -/
def recC5b : UndoBufferRecord := insRec 1 [3] (some 2) none

/-- The C5 tree after normalization: the synthetic line break (node 4)
sits immediately BEFORE the inserted one. -/
def docC5f (v : String) : Doc :=
  { nodes := [(0, { kind := NKind.element ("div"), value := none, attrs := [], children := [1] }),
              (1, { kind := NKind.element ("p"), value := none, attrs := [], children := [2, 4, 3] }),
              (2, { kind := NKind.text, value := some v, attrs := [], children := [] }),
              (3, { kind := NKind.element ("br"), value := none, attrs := [], children := [] }),
              (4, { kind := NKind.element ("br"), value := none, attrs := [], children := [] })],
    nextId := 5 }

/-- The record log after C5 normalization: the original record plus the
synthetic break's insertion record. -/
def recsC5 : List UndoBufferRecord := [recC5b, insRec 1 [4] (some 2) (some 3)]

/-- C5 (amended): for an inserted line break that is the last child,
has no following sibling, and whose previous sibling EXISTS and is not
itself a line break, normalization inserts one synthetic line break
immediately BEFORE it (not after), logging one extra insertion record —
for every text content and starting caret.  A line break inserted into
an empty paragraph (no previous sibling) is left alone. -/
theorem c5_br_with_prev_gets_twin (v : String) (rng : Rng) :
    ∃ rng', Nomalizer.normalize 20 0 { doc := docC5b v, sel := some rng } [recC5b] =
      some (.ok ({ doc := docC5f v, sel := some rng' }, recsC5)) :=
  ⟨_, by with_unfolding_all rfl⟩

/-- A paragraph (node 2, holding a text child) nested inside another
paragraph (node 1): the tree right after the C6 insertion. -/
def docC6a (v : String) : Doc :=
  { nodes := [(0, { kind := NKind.element ("div"), value := none, attrs := [], children := [1] }),
              (1, { kind := NKind.element ("p"), value := none, attrs := [], children := [2] }),
              (2, { kind := NKind.element ("p"), value := none, attrs := [], children := [3] }),
              (3, { kind := NKind.text, value := some v, attrs := [], children := [] })],
    nextId := 4 }

/-- The observer record for inserting the inner paragraph. -/
def recC6 : UndoBufferRecord := insRec 1 [2] none none

/-- C6, counterexample: a paragraph nested inside another paragraph is
NOT unwrapped when it holds a text child — the earlier has-text-child
link of the rule chain captures the node (its guard fails since the
node is a `p`, not the root `div`) and the `else if` chain stops, so
the paragraphs stay nested after normalization. -/
theorem c6_nested_p_with_text_stays :
    Nomalizer.normalize 30 0 { doc := docC6a ("t"), sel := some default } [recC6] =
      some (.ok ({ doc := docC6a ("t"), sel := some default }, [recC6])) ∧
    Nomalizer.hasPAncestor (docC6a ("t")) 0 ((docC6a ("t")).nodes.length + 1)
      ((docC6a ("t")).parentOf 2) = some (.ok true) :=
  ⟨by with_unfolding_all rfl, by with_unfolding_all rfl⟩

/-- An inner paragraph (node 2) holding two line breaks, nested in the
outer paragraph (node 1). -/
def docC6b : Doc :=
  { nodes := [(0, { kind := NKind.element ("div"), value := none, attrs := [], children := [1] }),
              (1, { kind := NKind.element ("p"), value := none, attrs := [], children := [2] }),
              (2, { kind := NKind.element ("p"), value := none, attrs := [], children := [3, 4] }),
              (3, { kind := NKind.element ("br"), value := none, attrs := [], children := [] }),
              (4, { kind := NKind.element ("br"), value := none, attrs := [], children := [] })],
    nextId := 5 }

/-- The C6 tree after normalization: the inner paragraph's children are
promoted to the outer paragraph; the emptied inner paragraph node stays
in the store but is detached from the tree. -/
def docC6f : Doc :=
  { nodes := [(0, { kind := NKind.element ("div"), value := none, attrs := [], children := [1] }),
              (1, { kind := NKind.element ("p"), value := none, attrs := [], children := [3, 4] }),
              (2, { kind := NKind.element ("p"), value := none, attrs := [], children := [] }),
              (3, { kind := NKind.element ("br"), value := none, attrs := [], children := [] }),
              (4, { kind := NKind.element ("br"), value := none, attrs := [], children := [] })],
    nextId := 5 }

/-- C6 (amended): the unwrap rule does fire for an inserted nested
paragraph that the earlier chain links do not capture (here: two
line-break children, so neither the text-child nor the single-break
link matches): its children are promoted to the outer paragraph, the
inner paragraph is detached, and the insertion records cancel out of
the log — for every starting caret. -/
theorem c6_nested_p_unwrapped (rng : Rng) :
    ∃ rng', Nomalizer.normalize 30 0 { doc := docC6b, sel := some rng } [recC6] =
      some (.ok ({ doc := docC6f, sel := some rng' }, [])) :=
  ⟨_, by with_unfolding_all rfl⟩

/-- A live `p` (node 2) inserted into a `div` (node 1) that is detached
from the root (node 0) — producible in one observer batch by inserting
the div under the root, inserting the p into it, then removing the div;
the liveness check `node.parentNode === op.target` still passes for the
p's record. -/
def docDetachedP : Doc :=
  { nodes := [(0, { kind := NKind.element ("div"), value := none, attrs := [], children := [] }),
              (1, { kind := NKind.element ("div"), value := none, attrs := [], children := [2] }),
              (2, { kind := NKind.element ("p"), value := none, attrs := [], children := [] })],
    nextId := 3 }

/-- At that state rule 6's ancestor walk runs off the detached chain and
dereferences the null parent: `normalize` throws a `TypeError` (it is
not an error-free no-op), and the rule chain does not report "no
applicable rule" — the state is outside `NoRule`. -/
theorem normalize_detached_p_raises :
    Nomalizer.normalize 9 0 { doc := docDetachedP, sel := some default }
        [insRec 1 [2] none none] =
      some (.error ("hasPAncestor: null parent")) ∧
    Nomalizer.ruleAction docDetachedP 0 1 2 ≠ some (.ok false) :=
  ⟨by with_unfolding_all rfl, by
    intro h
    have hval : Nomalizer.ruleAction docDetachedP 0 1 2 =
        some (Except.error ("hasPAncestor: null parent")) := by with_unfolding_all rfl
    rw [hval] at h
    simp at h⟩
